import Mathlib

/-!
Verification of the looky duplicate-image detector core.

This file shallowly embeds the core of the repository:
  * src/duplicates.rs — fingerprinting, exact/visual duplicate grouping
    (SHA-256 grouping, perceptual-hash hamming distance, union-find
    clustering with a tracked per-cluster minimum distance);
  * src/catalog.rs — the persistent fingerprint/metadata cache
    (SQLite modelled as an association list keyed by path, the filesystem
    as an oracle from paths to optional metadata);
  * src/thumbnail.rs — the progressive thumbnail pipeline (the image
    library calls are oracle parameters; the control flow and the
    placeholder fallback are embedded faithfully).

External libraries (sha2, image, jpeg_decoder, rusqlite row access, the
filesystem) are modelled as explicit function parameters: the embedding
never fixes their behaviour, every theorem quantifies over them.
Machine integers are modelled with Nat/Int; u32::MAX appears as the
literal sentinel UMAX, and i64 casts via toI64.
-/

namespace Looky

/-! ## Generic association-list helpers

HashMap<K, Vec<usize>> with entry().or_default().push(v) is modelled as an
association list in first-insertion key order; HashMap<usize, u32> insert
as an association list with replace-on-key. -/

section AssocHelpers

variable {κ : Type} {α : Type} [DecidableEq κ]

/-- Model of map.entry(k).or_default().push(a) on a HashMap of vectors. -/
def addToGroup : List (κ × List α) → κ → α → List (κ × List α)
  | [], k, a => [(k, [a])]
  | (k', v) :: rest, k, a =>
    if k' = k then (k', v ++ [a]) :: rest else (k', v) :: addToGroup rest k a

/-- Folding addToGroup over a list of key/value pairs (the grouping loops in
find_duplicates, both the SHA-256 phase and the cluster-collection phase). -/
def groupPairs (l : List (κ × α)) : List (κ × List α) :=
  l.foldl (fun m ka => addToGroup m ka.1 ka.2) []

end AssocHelpers

/-- Model of HashMap<usize, u32>::get (the min_distance map). -/
def mdLookup : List (Nat × Nat) → Nat → Option Nat
  | [], _ => none
  | (k', v) :: rest, k => if k' = k then some v else mdLookup rest k

/-- Model of HashMap<usize, u32>::insert (replace the value at the key). -/
def mdInsert : List (Nat × Nat) → Nat → Nat → List (Nat × Nat)
  | [], k, v => [(k, v)]
  | (k', v') :: rest, k, v =>
    if k' = k then (k, v) :: rest else (k', v') :: mdInsert rest k v

/-! ## Data model of src/duplicates.rs -/

/-- ImageHashes from src/duplicates.rs: a 32-byte SHA-256 content hash and a
variable-length perceptual-hash byte vector (bytes as Nat). -/
structure ImageHashes where
  content_hash : List Nat
  perceptual_hash : List Nat
  deriving DecidableEq

/-- MatchKind from src/duplicates.rs. -/
inductive MatchKind where
  | Exact : MatchKind
  | Visual (distance : Nat) : MatchKind
  deriving DecidableEq

/-- DuplicateGroup from src/duplicates.rs. -/
structure DuplicateGroup where
  match_kind : MatchKind
  indices : List Nat
  deriving DecidableEq

/-- A decoded image for the oracle interfaces (image::DynamicImage): width,
height and raw RGBA bytes. -/
structure Img where
  w : Nat
  h : Nat
  px : List Nat
  deriving DecidableEq

/-- compute_hashes from src/duplicates.rs. std::fs::read is modelled by the
optional file_bytes argument; Sha256::digest and the perceptual hasher
(image::load_from_memory plus hash_image) are oracle parameters. -/
def compute_hashes (sha256 : List Nat → List Nat)
    (load_from_memory : List Nat → Option Img) (hash_image : Img → List Nat)
    (file_bytes : Option (List Nat)) : Option ImageHashes :=
  match file_bytes with
  | none => none
  | some bytes =>
    let content_hash := sha256 bytes
    match load_from_memory bytes with
    | none => none
    | some img => some ⟨content_hash, hash_image img⟩

/-- Bit-count of the low eight bits, u8::count_ones on a byte value. -/
def popcount8Aux : Nat → Nat → Nat
  | 0, _ => 0
  | fuel + 1, x => x % 2 + popcount8Aux fuel (x / 2)

/-- u8::count_ones. -/
def popcount8 (x : Nat) : Nat := popcount8Aux 8 x

/-- hamming_distance from src/duplicates.rs: zip the two byte vectors,
XOR pointwise, count ones, sum. -/
def hamming_distance (a b : List Nat) : Nat :=
  ((a.zip b).map (fun xy => popcount8 (Nat.xor xy.1 xy.2))).sum

/-! ## Union-find (the in-place parent array is a function Nat → Nat) -/

/-- Pointwise store parent[x] = v. -/
def setP (p : Nat → Nat) (x v : Nat) : Nat → Nat :=
  fun y => if y = x then v else p y

/-- find from src/duplicates.rs with path halving:
while parent[x] != x { parent[x] = parent[parent[x]]; x = parent[x]; }.
The loop is embedded with explicit fuel; find_duplicates always passes
fuel = n, which the development proves sufficient. -/
def ufFind : Nat → (Nat → Nat) → Nat → (Nat → Nat) × Nat
  | 0, p, x => (p, x)
  | fuel + 1, p, x =>
    if p x = x then (p, x)
    else ufFind fuel (setP p x (p (p x))) (p (p x))

/-- union from src/duplicates.rs: find both roots, attach rb below ra. -/
def ufUnion (fuel : Nat) (p : Nat → Nat) (a b : Nat) : Nat → Nat :=
  let fa := ufFind fuel p a
  let fb := ufFind fuel fa.1 b
  if fa.2 ≠ fb.2 then setP fb.1 fb.2 fa.2 else fb.1

/-! ## find_duplicates from src/duplicates.rs, phase by phase -/

/-- Phase 1 grouping: sha_groups, a map from content hash to the indices
carrying it, in input order per key. -/
def shaGroups (hashes : List (Nat × ImageHashes)) : List (List Nat × List Nat) :=
  groupPairs (hashes.map (fun ih => (ih.2.content_hash, ih.1)))

/-- The Exact groups: every content-hash class with at least two members. -/
def exactGroups (hashes : List (Nat × ImageHashes)) : List DuplicateGroup :=
  (shaGroups hashes).filterMap
    (fun kv => if 1 < kv.2.length then some ⟨MatchKind.Exact, kv.2⟩ else none)

/-- exact_matched: all indices claimed by some Exact group. -/
def exactMatched (hashes : List (Nat × ImageHashes)) : List Nat :=
  (shaGroups hashes).foldl
    (fun s kv => if 1 < kv.2.length then s ++ kv.2 else s) []

/-- non_exact: the (index, perceptual_hash) pairs not claimed by an Exact
group, in input order. -/
def nonExact (hashes : List (Nat × ImageHashes)) : List (Nat × List Nat) :=
  (hashes.filter (fun ih => decide (ih.1 ∉ exactMatched hashes))).map
    (fun ih => (ih.1, ih.2.perceptual_hash))

/-- The perceptual hash stored at a position of the non_exact list. -/
def phashAt (pa : List (Nat × List Nat)) (i : Nat) : List Nat :=
  (pa.getD i (0, [])).2

/-- The image index stored at a position of the non_exact list. -/
def idxAt (pa : List (Nat × List Nat)) (i : Nat) : Nat :=
  (pa.getD i (0, [])).1

/-- matching_pairs: all position pairs i < j whose hamming distance is at
most the threshold, with that distance, in lexicographic order. -/
def matchingPairs (pa : List (Nat × List Nat)) (threshold : Nat) :
    List (Nat × Nat × Nat) :=
  (List.range pa.length).flatMap (fun i =>
    (List.range' (i + 1) (pa.length - (i + 1))).filterMap (fun j =>
      let dist := hamming_distance (phashAt pa i) (phashAt pa j)
      if dist ≤ threshold then some (i, j, dist) else none))

/-- u32::MAX, the absent-entry sentinel of the min_distance map. -/
def UMAX : Nat := 2 ^ 32 - 1

/-- The body of the sequential union-find loop over matching_pairs: union the
two positions and refresh the merged cluster's tracked minimum distance. -/
def processEdge (n : Nat) (st : (Nat → Nat) × List (Nat × Nat))
    (e : Nat × Nat × Nat) : (Nat → Nat) × List (Nat × Nat) :=
  let p := st.1
  let md := st.2
  let i := e.1
  let j := e.2.1
  let dist := e.2.2
  let f1 := ufFind n p i
  let ri := f1.2
  let f2 := ufFind n f1.1 j
  let rj := f2.2
  let p3 := ufUnion n f2.1 i j
  let f4 := ufFind n p3 i
  let root := f4.2
  let existing := (mdLookup md root).getD UMAX
  let di := (mdLookup md ri).getD UMAX
  let dj := (mdLookup md rj).getD UMAX
  let best := min (min (min dist existing) di) dj
  (f4.1, mdInsert md root best)

/-- The union-find state after folding the whole matching_pairs list:
the parent array (initially the identity) and the min_distance map. -/
def visualFoldState (hashes : List (Nat × ImageHashes)) (threshold : Nat) :
    (Nat → Nat) × List (Nat × Nat) :=
  (matchingPairs (nonExact hashes) threshold).foldl
    (processEdge (nonExact hashes).length) (fun x => x, [])

/-- The cluster-collection loop: find the root of every position and bucket
the carried image index under it. -/
def collectClusters (n : Nat) (pa : List (Nat × List Nat)) (p : Nat → Nat) :
    (Nat → Nat) × List (Nat × List Nat) :=
  (List.range n).foldl
    (fun st i =>
      let fr := ufFind n st.1 i
      (fr.1, addToGroup st.2 fr.2 (idxAt pa i)))
    (p, [])

/-- The visual clusters, keyed by root position. -/
def visualClusters (hashes : List (Nat × ImageHashes)) (threshold : Nat) :
    List (Nat × List Nat) :=
  (collectClusters (nonExact hashes).length (nonExact hashes)
    (visualFoldState hashes threshold).1).2

/-- The Visual groups: every cluster with at least two members, tagged with
the tracked minimum distance of its root (0 when no entry exists). -/
def visualGroups (hashes : List (Nat × ImageHashes)) (threshold : Nat) :
    List DuplicateGroup :=
  (visualClusters hashes threshold).filterMap
    (fun rv =>
      if 1 < rv.2.length then
        some ⟨MatchKind.Visual ((mdLookup (visualFoldState hashes threshold).2 rv.1).getD 0),
              rv.2⟩
      else none)

/-- find_duplicates from src/duplicates.rs: the Exact groups followed by the
Visual groups. -/
def find_duplicates (hashes : List (Nat × ImageHashes)) (threshold : Nat) :
    List DuplicateGroup :=
  exactGroups hashes ++ visualGroups hashes threshold

/-! ## Specification-side notions for the union-find development -/

/-- Iterate the parent function k times. -/
def pIter (p : Nat → Nat) : Nat → Nat → Nat
  | 0, x => x
  | k + 1, x => pIter p k (p x)

/-- x is a root of the parent function. -/
def isRootP (p : Nat → Nat) (x : Nat) : Prop := p x = x

instance (p : Nat → Nat) (x : Nat) : Decidable (isRootP p x) :=
  inferInstanceAs (Decidable (p x = x))

/-- The parent function maps positions below n to positions below n. -/
def UFRange (n : Nat) (p : Nat → Nat) : Prop := ∀ x, x < n → p x < n

/-- Every position below n reaches a fixpoint of the parent function. -/
def Settles (n : Nat) (p : Nat → Nat) : Prop :=
  ∀ x, x < n → ∃ k, isRootP p (pIter p k x)

/-- The well-formedness invariant of the union-find parent function. -/
def UFInv (n : Nat) (p : Nat → Nat) : Prop := UFRange n p ∧ Settles n p

/-- The canonical root of a position: n iterations of the parent function
(enough under UFInv, since a settling chain below n has length below n). -/
def rootN (n : Nat) (p : Nat → Nat) (x : Nat) : Nat := pIter p n x

/-- An edge of the processed list whose endpoints currently root at r. -/
def ClassEdge (n : Nat) (p : Nat → Nat) (done : List (Nat × Nat × Nat))
    (r d : Nat) : Prop :=
  ∃ i j, (i, j, d) ∈ done ∧ rootN n p i = r

/-- The invariant carried through the union-find fold over matching_pairs:
the parent function is well formed, processed edges have both endpoints
below n and in one class, every edge distance fits in u32, the tracked
minimum at each live root is exactly the least distance among the processed
edges inside its class, and every nontrivial class contains such an edge. -/
structure VF (n : Nat) (done : List (Nat × Nat × Nat))
    (st : (Nat → Nat) × List (Nat × Nat)) : Prop where
  inv : UFInv n st.1
  bounds : ∀ i j d, (i, j, d) ∈ done → i < n ∧ j < n ∧ d ≤ UMAX
  ends : ∀ i j d, (i, j, d) ∈ done → rootN n st.1 i = rootN n st.1 j
  mdSome : ∀ r v, isRootP st.1 r → mdLookup st.2 r = some v →
    ClassEdge n st.1 done r v ∧ ∀ d, ClassEdge n st.1 done r d → v ≤ d
  mdNone : ∀ r, isRootP st.1 r → mdLookup st.2 r = none →
    ∀ d, ¬ ClassEdge n st.1 done r d
  nontriv : ∀ x y, x < n → y < n → rootN n st.1 x = rootN n st.1 y → x ≠ y →
    ∃ d, ClassEdge n st.1 done (rootN n st.1 x) d

/-- First value stored under a key of a grouping association list. -/
def glookup {κ α : Type} [DecidableEq κ] : List (κ × List α) → κ → Option (List α)
  | [], _ => none
  | (k', v) :: rest, k => if k' = k then some v else glookup rest k

/-- The values carried by a key across a pair list, in order. -/
def groupVals {κ α : Type} [DecidableEq κ] (l : List (κ × α)) (k : κ) : List α :=
  (l.filter (fun ka => decide (ka.1 = k))).map Prod.snd

/-- Specification of a grouping accumulator: distinct keys, and each key
holds exactly the values it carries in the processed pair list. -/
def GInv {κ α : Type} [DecidableEq κ] (processed : List (κ × α))
    (acc : List (κ × List α)) : Prop :=
  (acc.map Prod.fst).Nodup ∧
    ∀ k, (groupVals processed k = [] → glookup acc k = none) ∧
      (groupVals processed k ≠ [] → glookup acc k = some (groupVals processed k))

/-- The perceptual hash that find_duplicates associates with an image
index: the one of the first input entry with that index. -/
def phashOf (hashes : List (Nat × ImageHashes)) (idx : Nat) : List Nat :=
  match hashes.find? (fun ih => ih.1 == idx) with
  | some ih => ih.2.perceptual_hash
  | none => []

/-! ## src/catalog.rs: the persistent cache

The images table is an association list from path to row (path is UNIQUE;
query_row returns the first match, which coincides on well-formed
databases).  The filesystem is an oracle from paths to optional metadata
(size in bytes, modification time as signed nanoseconds since the epoch);
None models a missing file or a failed stat. -/

/-- One row of the images table (src/catalog.rs init_schema). -/
structure Row where
  file_size : Int
  mtime_ns : Int
  width : Option Nat
  height : Option Nat
  date_taken : Option String
  date_modified : Option String
  content_hash : Option (List Nat)
  perceptual_hash : Option (List Nat)
  deriving DecidableEq

/-- Filesystem oracle: path to optional (size, mtime in signed ns). -/
def FsOracle : Type := String → Option (Nat × Int)

/-- Cast of an unsigned value to i64 (as in `meta.len() as i64` and
`mtime.as_nanos() as i64`): reduce modulo 2^64 and reinterpret signed. -/
def toI64 (x : Nat) : Int :=
  if x % 2 ^ 64 < 2 ^ 63 then (x % 2 ^ 64 : Nat) else (x % 2 ^ 64 : Nat) - 2 ^ 64

/-- file_size_and_mtime from src/catalog.rs: stat the file, fail for missing
files and pre-epoch timestamps, cast the nanosecond count to i64. -/
def file_size_and_mtime (fs : FsOracle) (path : String) : Option (Nat × Int) :=
  match fs path with
  | none => none
  | some (size, mtime) =>
    if mtime < 0 then none else some (size, toI64 mtime.toNat)

/-- SELECT ... WHERE path = ?1 via the first matching row. -/
def lookupRow : List (String × Row) → String → Option Row
  | [], _ => none
  | (q, r) :: rest, path => if q = path then some r else lookupRow rest path

/-- Catalog::get_hashes from src/catalog.rs: return the cached hashes only
when the row exists, its stored size and mtime match the disk, both hash
columns are present and the content hash is exactly 32 bytes. -/
def get_hashes (db : List (String × Row)) (fs : FsOracle) (path : String) :
    Option (List Nat × List Nat) :=
  match file_size_and_mtime fs path with
  | none => none
  | some (disk_size, disk_mtime) =>
    match lookupRow db path with
    | none => none
    | some row =>
      if row.file_size ≠ toI64 disk_size ∨ row.mtime_ns ≠ disk_mtime then none
      else
        match row.content_hash, row.perceptual_hash with
        | some ch, some ph =>
          if ch.length ≠ 32 then none else some (ch, ph)
        | _, _ => none

/-- Catalog::insert_hashes from src/catalog.rs: INSERT with
ON CONFLICT(path) DO UPDATE SET on exactly the four fingerprint columns.
A fresh row leaves the dimension and date columns NULL. -/
def insert_hashes (db : List (String × Row)) (path : String) (file_size : Nat)
    (mtime_ns : Int) (content_hash perceptual_hash : List Nat) :
    List (String × Row) :=
  match db with
  | [] =>
    [(path, ⟨toI64 file_size, mtime_ns, none, none, none, none,
             some content_hash, some perceptual_hash⟩)]
  | (q, r) :: rest =>
    if q = path then
      (q, { r with
              file_size := toI64 file_size
              mtime_ns := mtime_ns
              content_hash := some content_hash
              perceptual_hash := some perceptual_hash }) :: rest
    else (q, r) :: insert_hashes rest path file_size mtime_ns content_hash perceptual_hash

/-- Path::exists, which is fs::metadata(..).is_ok(). -/
def pathExists (fs : FsOracle) (path : String) : Bool :=
  (fs path).isSome

/-- Catalog::prune_missing from src/catalog.rs: delete every stored row
whose path no longer exists on disk. -/
def prune_missing (db : List (String × Row)) (fs : FsOracle) :
    List (String × Row) :=
  db.filter (fun e => pathExists fs e.1)

/-! ## src/thumbnail.rs: the progressive thumbnail pipeline

Image decoding, EXIF parsing and the on-disk thumbnail cache are oracle
fields of ThumbEnv, fixed per (path, max_size) call; the tier order, the
large-enough check and the placeholder fallback are embedded from the
source. -/

/-- The external world of one generate_thumbnail call. -/
structure ThumbEnv where
  read_exif_info : Nat × Option (List Nat)
  jpeg_header_dims : List Nat → Option (Nat × Nat)
  load_from_memory : List Nat → Option Img
  resize : Img → Nat → Nat → Img
  fliph : Img → Img
  flipv : Img → Img
  rot90 : Img → Img
  rot180 : Img → Img
  rot270 : Img → Img
  decode_jpeg_scaled : Nat → Option Img
  image_open : Option Img
  cache_key : Option String
  read_cache_qoi : String → Option (List Nat × Nat × Nat)
  read_cache_legacy : String → Option Img

/-- apply_orientation from src/thumbnail.rs. -/
def apply_orientation (env : ThumbEnv) (img : Img) (orientation : Nat) : Img :=
  match orientation with
  | 2 => env.fliph img
  | 3 => env.rot180 img
  | 4 => env.flipv img
  | 5 => env.fliph (env.rot90 img)
  | 6 => env.rot90 img
  | 7 => env.fliph (env.rot270 img)
  | 8 => env.rot270 img
  | _ => img

/-- The shared tail of every successful tier: resize to the target, apply
the stored orientation, return raw RGBA bytes with dimensions. -/
def finishImg (env : ThumbEnv) (img : Img) (max_size orientation : Nat) :
    List Nat × Nat × Nat :=
  let thumb := env.resize img max_size max_size
  let thumb := apply_orientation env thumb orientation
  (thumb.px, thumb.w, thumb.h)

/-- placeholder_thumbnail from src/thumbnail.rs: a solid bitmap of the
requested size (four bytes of value 60 per pixel). -/
def placeholder_thumbnail (size : Nat) : List Nat × Nat × Nat :=
  (List.replicate (size * size * 4) 60, size, size)

/-- generate_thumbnail_uncached from src/thumbnail.rs: embedded EXIF
preview (only when its smaller header dimension reaches the target), then
scaled JPEG decode, then full decode, then the placeholder. -/
def generate_thumbnail_uncached (env : ThumbEnv) (max_size : Nat) :
    List Nat × Nat × Nat :=
  let orientation := env.read_exif_info.1
  let exif_thumb := env.read_exif_info.2
  let embedded : Option (List Nat × Nat × Nat) :=
    match exif_thumb with
    | none => none
    | some data =>
      let large_enough :=
        match env.jpeg_header_dims data with
        | some (w, h) => decide (max_size ≤ min w h)
        | none => false
      if large_enough then
        match env.load_from_memory data with
        | some img => some (finishImg env img max_size orientation)
        | none => none
      else none
  match embedded with
  | some r => r
  | none =>
    match env.decode_jpeg_scaled max_size with
    | some img => finishImg env img max_size orientation
    | none =>
      match env.image_open with
      | some img => finishImg env img max_size orientation
      | none => placeholder_thumbnail max_size

/-- generate_thumbnail from src/thumbnail.rs: QOI disk cache, then legacy
JPEG cache, then the uncached pipeline (the best-effort cache write-back
does not affect the returned value). -/
def generate_thumbnail (env : ThumbEnv) (max_size : Nat) :
    List Nat × Nat × Nat :=
  match env.cache_key with
  | some key =>
    match env.read_cache_qoi key with
    | some phw => phw
    | none =>
      match env.read_cache_legacy key with
      | some img => (img.px, img.w, img.h)
      | none => generate_thumbnail_uncached env max_size
  | none => generate_thumbnail_uncached env max_size

/-! ## Lemmas: iteration of the parent function -/

@[simp] theorem pIter_zero (p : Nat → Nat) (x : Nat) : pIter p 0 x = x := rfl

theorem pIter_succ (p : Nat → Nat) (k x : Nat) :
    pIter p (k + 1) x = pIter p k (p x) := rfl

theorem pIter_add (p : Nat → Nat) (k l x : Nat) :
    pIter p (k + l) x = pIter p l (pIter p k x) := by
  induction k generalizing x with
  | zero => simp
  | succ k ih =>
    have : k + 1 + l = (k + l) + 1 := by omega
    rw [this, pIter_succ, pIter_succ, ih]

theorem pIter_succ_outer (p : Nat → Nat) (k x : Nat) :
    pIter p (k + 1) x = p (pIter p k x) := by
  induction k generalizing x with
  | zero => rfl
  | succ k ih => rw [pIter_succ, ih, ← pIter_succ]

theorem pIter_fix {p : Nat → Nat} {r : Nat} (hr : isRootP p r) (k : Nat) :
    pIter p k r = r := by
  induction k with
  | zero => rfl
  | succ k ih => rw [pIter_succ_outer, ih, hr]

theorem root_unique {p : Nat → Nat} {x k k' r r' : Nat}
    (h : pIter p k x = r) (hr : isRootP p r)
    (h' : pIter p k' x = r') (hr' : isRootP p r') : r = r' := by
  rcases Nat.le_total k k' with hle | hle
  · have : pIter p (k + (k' - k)) x = r' := by
      rwa [show k + (k' - k) = k' by omega]
    rw [pIter_add, h, pIter_fix hr] at this
    exact this
  · have : pIter p (k' + (k - k')) x = r := by
      rwa [show k' + (k - k') = k by omega]
    rw [pIter_add, h', pIter_fix hr'] at this
    exact this.symm

theorem pIter_lt {n : Nat} {p : Nat → Nat} (hp : UFRange n p) {x : Nat}
    (hx : x < n) (k : Nat) : pIter p k x < n := by
  induction k generalizing x with
  | zero => exact hx
  | succ k ih => exact ih (hp x hx)

/-- Pigeonhole: under UFRange, a position below n that settles at all
settles within fewer than n steps. -/
theorem reach_bound {n : Nat} {p : Nat → Nat} (hp : UFRange n p) {x : Nat}
    (hx : x < n) (h : ∃ k, isRootP p (pIter p k x)) :
    ∃ m, m < n ∧ isRootP p (pIter p m x) := by
  classical
  set m := Nat.find h with hm
  have hroot : isRootP p (pIter p m x) := Nat.find_spec h
  refine ⟨m, ?_, hroot⟩
  have hdist : ∀ i j, i < j → j ≤ m → pIter p i x ≠ pIter p j x := by
    intro i j hij hjm heq
    have hshift : pIter p (i + (m - j)) x = pIter p (m - j) (pIter p i x) :=
      pIter_add p i (m - j) x
    have hshift' : pIter p (j + (m - j)) x = pIter p (m - j) (pIter p j x) :=
      pIter_add p j (m - j) x
    have hj : j + (m - j) = m := by omega
    have : pIter p (i + (m - j)) x = pIter p m x := by
      rw [hshift, heq, ← hshift', hj]
    have hlt : i + (m - j) < m := by omega
    exact Nat.find_min h hlt (by rw [this]; exact hroot)
  by_contra hnm
  push_neg at hnm
  have hinj : Set.InjOn (fun t => pIter p t x) (Finset.range (m + 1)) := by
    intro a ha b hb hab
    simp only [Finset.coe_range, Set.mem_Iio] at ha hb
    rcases Nat.lt_trichotomy a b with h1 | h1 | h1
    · exact absurd hab (hdist a b h1 (by omega))
    · exact h1
    · exact absurd hab.symm (hdist b a h1 (by omega))
  have hmaps : ∀ t ∈ Finset.range (m + 1), pIter p t x ∈ Finset.range n := by
    intro t _
    exact Finset.mem_range.mpr (pIter_lt hp hx t)
  have hcard := Finset.card_le_card_of_injOn (fun t => pIter p t x) hmaps hinj
  simp only [Finset.card_range] at hcard
  omega

theorem rootN_isRoot {n : Nat} {p : Nat → Nat} (h : UFInv n p) {x : Nat}
    (hx : x < n) : isRootP p (rootN n p x) := by
  obtain ⟨m, hmn, hroot⟩ := reach_bound h.1 hx (h.2 x hx)
  have : pIter p (m + (n - m)) x = pIter p m x := by
    rw [pIter_add, pIter_fix hroot]
  have hn : m + (n - m) = n := by omega
  rw [hn] at this
  unfold rootN
  rw [this]
  exact hroot

theorem rootN_reached {n : Nat} (p : Nat → Nat) (x : Nat) :
    pIter p n x = rootN n p x := rfl

theorem rootN_eq_of_reach {n : Nat} {p : Nat → Nat} (h : UFInv n p) {x k r : Nat}
    (hx : x < n) (hk : pIter p k x = r) (hr : isRootP p r) :
    rootN n p x = r :=
  root_unique (rootN_reached p x) (rootN_isRoot h hx) hk hr

theorem rootN_lt {n : Nat} {p : Nat → Nat} (h : UFInv n p) {x : Nat}
    (hx : x < n) : rootN n p x < n :=
  pIter_lt h.1 hx n

theorem rootN_of_root {n : Nat} {p : Nat → Nat} (h : UFInv n p) {x : Nat}
    (hx : x < n) (hr : isRootP p x) : rootN n p x = x :=
  rootN_eq_of_reach h hx (pIter_zero p x) hr

theorem rootN_idem {n : Nat} {p : Nat → Nat} (h : UFInv n p) {x : Nat}
    (hx : x < n) : rootN n p (rootN n p x) = rootN n p x :=
  rootN_of_root h (rootN_lt h hx) (rootN_isRoot h hx)

theorem rootN_parent {n : Nat} {p : Nat → Nat} (h : UFInv n p) {x : Nat}
    (hx : x < n) : rootN n p (p x) = rootN n p x := by
  have hpx : p x < n := h.1 x hx
  have hn : n = (n - 1) + 1 := by omega
  have hreach : pIter p (n - 1) (p x) = rootN n p x := by
    have h1 : pIter p ((n - 1) + 1) x = rootN n p x := by
      rw [← hn]
      exact rootN_reached p x
    rw [pIter_succ] at h1
    exact h1
  exact rootN_eq_of_reach h hpx hreach (rootN_isRoot h hx)

/-! ## Lemmas: path compression -/

@[simp] theorem setP_same (p : Nat → Nat) (x v : Nat) : setP p x v x = v := by
  simp [setP]

theorem setP_ne (p : Nat → Nat) {x y : Nat} (v : Nat) (h : y ≠ x) :
    setP p x v y = p y := by
  simp [setP, h]

/-- A settling position cannot sit on a two-cycle. -/
theorem no_two_cycle {p : Nat → Nat} {x : Nat}
    (hs : ∃ k, isRootP p (pIter p k x)) (hpx : p x ≠ x) : p (p x) ≠ x := by
  intro hcyc
  have heven : ∀ k, pIter p (2 * k) x = x := by
    intro k
    induction k with
    | zero => rfl
    | succ k ih =>
      have : 2 * (k + 1) = 2 + 2 * k := by omega
      rw [this, pIter_add]
      have h2 : pIter p 2 x = x := by
        show pIter p 2 x = x
        simp [pIter, hcyc]
      rw [h2, ih]
  have hodd : ∀ k, pIter p (2 * k + 1) x = p x := by
    intro k
    rw [pIter_succ_outer, heven]
  obtain ⟨k, hk⟩ := hs
  rcases Nat.even_or_odd k with ⟨c, hc⟩ | ⟨c, hc⟩
  · rw [hc] at hk
    rw [show c + c = 2 * c by omega] at hk
    rw [heven] at hk
    exact hpx hk
  · rw [hc] at hk
    rw [hodd] at hk
    unfold isRootP at hk
    rw [hcyc] at hk
    exact hpx hk.symm

/-- Unfolding equation of the fuelled find. -/
theorem ufFind_succ (fuel : Nat) (p : Nat → Nat) (x : Nat) :
    ufFind (fuel + 1) p x =
      if p x = x then (p, x) else ufFind fuel (setP p x (p (p x))) (p (p x)) :=
  rfl

/-- Chains survive one path-halving store, without getting longer. -/
theorem chain_transfer_comp {p : Nat → Nat} {x : Nat} (hpx : p x ≠ x) :
    ∀ k y r, pIter p k y = r → isRootP p r →
      ∃ k', k' ≤ k ∧ pIter (setP p x (p (p x))) k' y = r := by
  intro k
  induction k using Nat.strong_induction_on with
  | _ k ih =>
    intro y r hk hr
    match k, hk with
    | 0, hk => exact ⟨0, Nat.le_refl 0, hk⟩
    | k + 1, hk =>
      by_cases hy : p y = y
      · have hfix : pIter p (k + 1) y = y := pIter_fix hy (k + 1)
        rw [hk] at hfix
        exact ⟨0, Nat.zero_le _, hfix.symm⟩
      by_cases hyx : y = x
      · rw [hyx] at hk ⊢
        match k, hk with
        | 0, hk =>
          have hrx : p x = r := hk
          refine ⟨1, Nat.le_refl 1, ?_⟩
          rw [pIter_succ, setP_same, pIter_zero, hrx]
          exact hr
        | k + 1, hk =>
          have hk2 : pIter p k (p (p x)) = r := hk
          obtain ⟨k', hk'le, hk'⟩ := ih k (by omega) (p (p x)) r hk2 hr
          refine ⟨k' + 1, by omega, ?_⟩
          rw [pIter_succ, setP_same]
          exact hk'
      · have hk2 : pIter p k (p y) = r := hk
        obtain ⟨k', hk'le, hk'⟩ := ih k (by omega) (p y) r hk2 hr
        refine ⟨k' + 1, by omega, ?_⟩
        rw [pIter_succ, setP_ne p _ hyx]
        exact hk'

/-- One path-halving store preserves the invariant, every root and the root
assignment. -/
theorem comp_spec {n : Nat} {p : Nat → Nat} (h : UFInv n p) {x : Nat}
    (hx : x < n) (hpx : p x ≠ x) :
    UFInv n (setP p x (p (p x))) ∧
      (∀ z, isRootP (setP p x (p (p x))) z ↔ isRootP p z) ∧
      (∀ y, y < n → rootN n (setP p x (p (p x))) y = rootN n p y) := by
  set p' := setP p x (p (p x)) with hp'
  have hroots : ∀ z, isRootP p' z ↔ isRootP p z := by
    intro z
    by_cases hz : z = x
    · subst hz
      have h2 : p (p z) ≠ z := no_two_cycle (h.2 z hx) hpx
      constructor
      · intro hc
        rw [hp'] at hc
        unfold isRootP at hc
        rw [setP_same] at hc
        exact absurd hc h2
      · intro hc
        exact absurd hc hpx
    · unfold isRootP
      rw [hp', setP_ne p _ hz]
  have hrange : UFRange n p' := by
    intro y hy
    by_cases hz : y = x
    · subst hz
      rw [hp', setP_same]
      exact h.1 _ (h.1 _ hy)
    · rw [hp', setP_ne p _ hz]
      exact h.1 _ hy
  have hsettle : Settles n p' := by
    intro y hy
    have hr := rootN_isRoot h hy
    obtain ⟨k', _, hk'⟩ := chain_transfer_comp hpx n y (rootN n p y)
      (rootN_reached p y) hr
    exact ⟨k', by rw [hk']; exact (hroots _).mpr hr⟩
  have hinv' : UFInv n p' := ⟨hrange, hsettle⟩
  refine ⟨hinv', hroots, ?_⟩
  intro y hy
  have hr := rootN_isRoot h hy
  obtain ⟨k', _, hk'⟩ := chain_transfer_comp hpx n y (rootN n p y)
    (rootN_reached p y) hr
  exact rootN_eq_of_reach hinv' hy hk' ((hroots _).mpr hr)

/-- Correctness of the fuelled find: with enough fuel it returns the
canonical root and only compresses paths (the invariant, the root set and
the root assignment are preserved). -/
theorem ufFind_ok {n : Nat} :
    ∀ (fuel : Nat) (p : Nat → Nat) (x : Nat), UFInv n p → x < n →
      (∃ m, m ≤ fuel ∧ isRootP p (pIter p m x)) →
      (ufFind fuel p x).2 = rootN n p x ∧ UFInv n (ufFind fuel p x).1 ∧
        (∀ z, isRootP (ufFind fuel p x).1 z ↔ isRootP p z) ∧
        (∀ y, y < n → rootN n (ufFind fuel p x).1 y = rootN n p y) := by
  intro fuel
  induction fuel with
  | zero =>
    intro p x h hx hm
    obtain ⟨m, hm0, hroot⟩ := hm
    have hm0' : m = 0 := by omega
    subst hm0'
    have hrx : isRootP p x := hroot
    have : rootN n p x = x := rootN_of_root h hx hrx
    exact ⟨this.symm, h, fun z => Iff.rfl, fun y _ => rfl⟩
  | succ fuel ih =>
    intro p x h hx hm
    by_cases hpx : p x = x
    · have hfind : ufFind (fuel + 1) p x = (p, x) := by
        rw [ufFind_succ, if_pos hpx]
      rw [hfind]
      have hrx : rootN n p x = x := rootN_of_root h hx hpx
      exact ⟨hrx.symm, h, fun z => Iff.rfl, fun y _ => rfl⟩
    · have hfind : ufFind (fuel + 1) p x =
          ufFind fuel (setP p x (p (p x))) (p (p x)) := by
        rw [ufFind_succ, if_neg hpx]
      obtain ⟨hinv', hroots', hrootN'⟩ := comp_spec h hx hpx
      have hxx : p (p x) < n := h.1 _ (h.1 _ hx)
      have hfuel : ∃ m, m ≤ fuel ∧
          isRootP (setP p x (p (p x))) (pIter (setP p x (p (p x))) m (p (p x))) := by
        obtain ⟨m, hmle, hroot⟩ := hm
        match m, hroot with
        | 0, hroot => exact absurd hroot hpx
        | 1, hroot =>
          have h1 : isRootP p (p x) := hroot
          have h2 : isRootP p (p (p x)) := by
            unfold isRootP at h1 ⊢
            rw [h1]
            exact h1
          refine ⟨0, Nat.zero_le _, ?_⟩
          rw [pIter_zero]
          exact (hroots' _).mpr h2
        | m + 2, hroot =>
          have hchain : pIter p m (p (p x)) = pIter p (m + 2) x := rfl
          obtain ⟨k', hk'le, hk'⟩ := chain_transfer_comp hpx m (p (p x))
            (pIter p (m + 2) x) hchain hroot
          refine ⟨k', by omega, ?_⟩
          rw [hk']
          exact (hroots' _).mpr hroot
      obtain ⟨hres, hinv'', hroots'', hrootN''⟩ := ih _ _ hinv' hxx hfuel
      rw [hfind]
      refine ⟨?_, hinv'', ?_, ?_⟩
      · rw [hres, hrootN' _ hxx, rootN_parent h (h.1 _ hx), rootN_parent h hx]
      · intro z
        rw [hroots'' z, hroots' z]
      · intro y hy
        rw [hrootN'' y hy, hrootN' y hy]

/-- find with fuel n is always sufficient under the invariant. -/
theorem ufFind_n {n : Nat} {p : Nat → Nat} (h : UFInv n p) {x : Nat}
    (hx : x < n) :
    (ufFind n p x).2 = rootN n p x ∧ UFInv n (ufFind n p x).1 ∧
      (∀ z, isRootP (ufFind n p x).1 z ↔ isRootP p z) ∧
      (∀ y, y < n → rootN n (ufFind n p x).1 y = rootN n p y) := by
  obtain ⟨m, hmn, hroot⟩ := reach_bound h.1 hx (h.2 x hx)
  exact ufFind_ok n p x h hx ⟨m, by omega, hroot⟩

/-! ## Lemmas: union -/

/-- After attaching root rb below root ra, chains that reached rb reach ra. -/
theorem chain_to_attached {p : Nat → Nat} {ra rb : Nat} (hra : isRootP p ra)
    (hne : ra ≠ rb) :
    ∀ k y, pIter p k y = rb → ∃ k', pIter (setP p rb ra) k' y = ra := by
  intro k
  induction k using Nat.strong_induction_on with
  | _ k ih =>
    intro y hk
    by_cases hy : y = rb
    · refine ⟨1, ?_⟩
      rw [hy, pIter_succ, setP_same, pIter_zero]
    · match k, hk with
      | 0, hk => exact absurd hk hy
      | k + 1, hk =>
        obtain ⟨k', hk'⟩ := ih k (by omega) (p y) hk
        refine ⟨k' + 1, ?_⟩
        rw [pIter_succ, setP_ne p _ hy]
        exact hk'

/-- Chains that reach a root other than rb are untouched by the store. -/
theorem chain_avoiding {p : Nat → Nat} {rb : Nat} (hrb : isRootP p rb) (ra : Nat) :
    ∀ k y r, pIter p k y = r → isRootP p r → r ≠ rb →
      pIter (setP p rb ra) k y = r := by
  intro k
  induction k with
  | zero =>
    intro y r hk _ _
    exact hk
  | succ k ih =>
    intro y r hk hr hne
    by_cases hy : y = rb
    · exfalso
      rw [hy] at hk
      rw [pIter_fix hrb] at hk
      exact hne hk.symm
    · rw [pIter_succ, setP_ne p _ hy]
      rw [pIter_succ] at hk
      exact ih (p y) r hk hr hne

/-- Specification of union: the invariant is preserved, the class of b is
absorbed into the class of a, every other class and every other root is
untouched. -/
theorem ufUnion_spec {n : Nat} {p : Nat → Nat} (h : UFInv n p) {a b : Nat}
    (ha : a < n) (hb : b < n) :
    UFInv n (ufUnion n p a b) ∧
      (∀ y, y < n → rootN n (ufUnion n p a b) y =
        if rootN n p y = rootN n p b then rootN n p a else rootN n p y) ∧
      (∀ z, isRootP (ufUnion n p a b) z ↔
        (isRootP p z ∧ (rootN n p a = rootN n p b ∨ z ≠ rootN n p b))) := by
  obtain ⟨hfa, hinva, hrootsa, hrootNa⟩ := ufFind_n h ha
  set p1 := (ufFind n p a).1 with hp1
  obtain ⟨hfb, hinvb, hrootsb, hrootNb⟩ := ufFind_n hinva hb
  set p2 := (ufFind n p1 b).1 with hp2
  set ra := rootN n p a with hra
  set rb := rootN n p b with hrbdef
  have hfb' : (ufFind n p1 b).2 = rb := by
    rw [hfb, hrootNa b hb]
  have hq : ufUnion n p a b = if ra ≠ rb then setP p2 rb ra else p2 := by
    show (if (ufFind n p a).2 ≠ (ufFind n (ufFind n p a).1 b).2 then
        setP (ufFind n (ufFind n p a).1 b).1 (ufFind n (ufFind n p a).1 b).2
          (ufFind n p a).2
      else (ufFind n (ufFind n p a).1 b).1) = _
    rw [← hp1, ← hp2, hfa, hfb']
  have hrootN2 : ∀ y, y < n → rootN n p2 y = rootN n p y := by
    intro y hy
    rw [hrootNb y hy, hrootNa y hy]
  have hroots2 : ∀ z, isRootP p2 z ↔ isRootP p z := by
    intro z
    rw [hrootsb z, hrootsa z]
  by_cases hrarb : ra = rb
  · have hqeq : ufUnion n p a b = p2 := by
      rw [hq, if_neg (by simp [hrarb])]
    rw [hqeq]
    refine ⟨hinvb, ?_, ?_⟩
    · intro y hy
      rw [hrootN2 y hy]
      by_cases hyb : rootN n p y = rb
      · rw [if_pos hyb, hyb, hrarb]
      · rw [if_neg hyb]
    · intro z
      rw [hroots2 z]
      constructor
      · intro hz
        exact ⟨hz, Or.inl hrarb⟩
      · intro hz
        exact hz.1
  · have hqeq : ufUnion n p a b = setP p2 rb ra := by
      rw [hq, if_pos hrarb]
    have hra_lt : ra < n := rootN_lt h ha
    have hrb_lt : rb < n := rootN_lt h hb
    have hra_root2 : isRootP p2 ra := (hroots2 ra).mpr (rootN_isRoot h ha)
    have hrb_root2 : isRootP p2 rb := (hroots2 rb).mpr (rootN_isRoot h hb)
    set q := setP p2 rb ra with hqdef
    have hroots_q : ∀ z, isRootP q z ↔ (isRootP p2 z ∧ z ≠ rb) := by
      intro z
      by_cases hz : z = rb
      · rw [hz]
        unfold isRootP
        rw [hqdef, setP_same]
        constructor
        · intro hc
          exact absurd hc hrarb
        · intro hc
          exact absurd rfl hc.2
      · unfold isRootP
        rw [hqdef, setP_ne p2 _ hz]
        exact ⟨fun hc => ⟨hc, hz⟩, fun hc => hc.1⟩
    have hreach_q : ∀ y, y < n →
        (rootN n p2 y = rb → ∃ k, pIter q k y = ra) ∧
        (rootN n p2 y ≠ rb → ∃ k, pIter q k y = rootN n p2 y) := by
      intro y hy
      constructor
      · intro hyb
        have := chain_to_attached hra_root2 hrarb n y (by rw [rootN_reached, hyb])
        rw [← hqdef] at this
        exact this
      · intro hyb
        refine ⟨n, ?_⟩
        have := chain_avoiding hrb_root2 ra n y (rootN n p2 y)
          (rootN_reached p2 y) (rootN_isRoot hinvb hy) hyb
        rw [← hqdef] at this
        exact this
    have hrange_q : UFRange n q := by
      intro y hy
      by_cases hz : y = rb
      · rw [hz, hqdef, setP_same]
        exact hra_lt
      · rw [hqdef, setP_ne p2 _ hz]
        exact hinvb.1 y hy
    have hra_root_q : isRootP q ra := (hroots_q ra).mpr ⟨hra_root2, hrarb⟩
    have hsettles_q : Settles n q := by
      intro y hy
      by_cases hyb : rootN n p2 y = rb
      · obtain ⟨k, hk⟩ := (hreach_q y hy).1 hyb
        exact ⟨k, by rw [hk]; exact hra_root_q⟩
      · obtain ⟨k, hk⟩ := (hreach_q y hy).2 hyb
        refine ⟨k, ?_⟩
        rw [hk]
        exact (hroots_q _).mpr ⟨rootN_isRoot hinvb hy, hyb⟩
    have hinv_q : UFInv n q := ⟨hrange_q, hsettles_q⟩
    rw [hqeq]
    refine ⟨hinv_q, ?_, ?_⟩
    · intro y hy
      by_cases hyb : rootN n p y = rb
      · rw [if_pos hyb]
        obtain ⟨k, hk⟩ := (hreach_q y hy).1 (by rw [hrootN2 y hy]; exact hyb)
        exact rootN_eq_of_reach hinv_q hy hk hra_root_q
      · rw [if_neg hyb]
        have hyb2 : rootN n p2 y ≠ rb := by
          rw [hrootN2 y hy]
          exact hyb
        obtain ⟨k, hk⟩ := (hreach_q y hy).2 hyb2
        have := rootN_eq_of_reach hinv_q hy hk
          ((hroots_q _).mpr ⟨rootN_isRoot hinvb hy, hyb2⟩)
        rw [this, hrootN2 y hy]
    · intro z
      rw [hroots_q z, hroots2 z]
      constructor
      · intro hz
        exact ⟨hz.1, Or.inr hz.2⟩
      · intro hz
        rcases hz.2 with hc | hc
        · exact absurd hc hrarb
        · exact ⟨hz.1, hc⟩

/-! ## Lemmas: the min_distance map -/

theorem mdLookup_insert_self (m : List (Nat × Nat)) (k v : Nat) :
    mdLookup (mdInsert m k v) k = some v := by
  induction m with
  | nil => simp [mdInsert, mdLookup]
  | cons kv rest ih =>
    by_cases hk : kv.1 = k
    · simp [mdInsert, mdLookup, hk]
    · simp only [mdInsert, mdLookup, hk, if_neg, ite_false]
      exact ih

theorem mdLookup_insert_ne (m : List (Nat × Nat)) {k k' : Nat} (v : Nat)
    (h : k' ≠ k) : mdLookup (mdInsert m k v) k' = mdLookup m k' := by
  induction m with
  | nil =>
    simp only [mdInsert, mdLookup]
    rw [if_neg (fun h2 => h h2.symm)]
  | cons kv rest ih =>
    by_cases hk : kv.1 = k
    · simp [mdInsert, mdLookup, hk, Ne.symm h]
    · simp only [mdInsert, mdLookup, hk, ite_false]
      by_cases hk' : kv.1 = k'
      · simp [hk']
      · simp [hk', ih]

/-- Unfolding equation for the union-find loop body. -/
theorem processEdge_eq (n : Nat) (p : Nat → Nat) (md : List (Nat × Nat))
    (i j d : Nat) :
    processEdge n (p, md) (i, j, d) =
      ((ufFind n (ufUnion n (ufFind n (ufFind n p i).1 j).1 i j) i).1,
        mdInsert md (ufFind n (ufUnion n (ufFind n (ufFind n p i).1 j).1 i j) i).2
          (min (min (min d
              ((mdLookup md
                (ufFind n (ufUnion n (ufFind n (ufFind n p i).1 j).1 i j) i).2).getD UMAX))
              ((mdLookup md (ufFind n p i).2).getD UMAX))
            ((mdLookup md (ufFind n (ufFind n p i).1 j).2).getD UMAX))) := rfl

/-- The invariant of the union-find fold survives one edge. -/
theorem VF_step {n : Nat} {done : List (Nat × Nat × Nat)} {p : Nat → Nat}
    {md : List (Nat × Nat)} (hvf : VF n done (p, md)) {i j d : Nat}
    (hi : i < n) (hj : j < n) (hd : d ≤ UMAX) :
    VF n (done ++ [(i, j, d)]) (processEdge n (p, md) (i, j, d)) := by
  obtain ⟨hinv, hbounds, hends, hmdSome, hmdNone, hnontriv⟩ := hvf
  obtain ⟨hf1r, hinv1, hroots1, hrootN1⟩ := ufFind_n hinv hi
  set p1 := (ufFind n p i).1 with hp1
  obtain ⟨hf2r, hinv2, hroots2, hrootN2⟩ := ufFind_n hinv1 hj
  set p2 := (ufFind n p1 j).1 with hp2
  set ri := rootN n p i with hri
  set rj := rootN n p j with hrj
  have hf2r' : (ufFind n p1 j).2 = rj := by rw [hf2r, hrootN1 j hj]
  have hrootN2' : ∀ y, y < n → rootN n p2 y = rootN n p y := by
    intro y hy
    rw [hrootN2 y hy, hrootN1 y hy]
  have hroots2' : ∀ z, isRootP p2 z ↔ isRootP p z := by
    intro z
    rw [hroots2 z, hroots1 z]
  obtain ⟨hinv3, hrootN3raw, hroots3raw⟩ := ufUnion_spec hinv2 hi hj
  set p3 := ufUnion n p2 i j with hp3
  have hrootN3 : ∀ y, y < n →
      rootN n p3 y = if rootN n p y = rj then ri else rootN n p y := by
    intro y hy
    rw [hrootN3raw y hy, hrootN2' y hy, hrootN2' i hi, hrootN2' j hj]
  have hroots3 : ∀ z, isRootP p3 z ↔ (isRootP p z ∧ (ri = rj ∨ z ≠ rj)) := by
    intro z
    rw [hroots3raw z, hroots2' z, hrootN2' i hi, hrootN2' j hj]
  have hri3 : rootN n p3 i = ri := by
    rw [hrootN3 i hi]
    split_ifs <;> rfl
  obtain ⟨hf4r, hinv4, hroots4raw, hrootN4raw⟩ := ufFind_n hinv3 hi
  set p4 := (ufFind n p3 i).1 with hp4
  have hf4r' : (ufFind n p3 i).2 = ri := by rw [hf4r, hri3]
  have hrootN4 : ∀ y, y < n →
      rootN n p4 y = if rootN n p y = rj then ri else rootN n p y := by
    intro y hy
    rw [hrootN4raw y hy, hrootN3 y hy]
  have hroots4 : ∀ z, isRootP p4 z ↔ (isRootP p z ∧ (ri = rj ∨ z ≠ rj)) := by
    intro z
    rw [hroots4raw z, hroots3 z]
  set di := (mdLookup md ri).getD UMAX with hdi
  set dj := (mdLookup md rj).getD UMAX with hdj
  have hpe : processEdge n (p, md) (i, j, d) =
      (p4, mdInsert md ri (min (min d di) dj)) := by
    rw [processEdge_eq, ← hp1, ← hp2, ← hp3, hf4r', ← hp4, hf1r, hf2r']
    rw [min_assoc d di di, min_self]
  rw [hpe]
  set best := min (min d di) dj with hbest
  have hp4i : rootN n p4 i = ri := by
    rw [hrootN4 i hi]
    split_ifs <;> rfl
  have hp4j : rootN n p4 j = ri := by
    rw [hrootN4 j hj]
    rw [if_pos rfl]
  have hri_root : isRootP p ri := rootN_isRoot hinv hi
  have hrj_root : isRootP p rj := rootN_isRoot hinv hj
  have hclass : ∀ a, a < n →
      (rootN n p4 a = ri ↔ (rootN n p a = ri ∨ rootN n p a = rj)) := by
    intro a ha
    rw [hrootN4 a ha]
    constructor
    · intro hc
      by_cases h2 : rootN n p a = rj
      · exact Or.inr h2
      · rw [if_neg h2] at hc
        exact Or.inl hc
    · intro hc
      rcases hc with h2 | h2
      · by_cases h3 : rootN n p a = rj
        · rw [if_pos h3]
        · rw [if_neg h3]
          exact h2
      · rw [if_pos h2]
  have hclass_ne : ∀ r, r ≠ ri → r ≠ rj → ∀ a, a < n →
      (rootN n p4 a = r ↔ rootN n p a = r) := by
    intro r hr1 hr2 a ha
    rw [hrootN4 a ha]
    by_cases h2 : rootN n p a = rj
    · rw [if_pos h2]
      constructor
      · intro h3
        exact absurd h3.symm hr1
      · intro h3
        rw [h2] at h3
        exact absurd h3.symm hr2
    · rw [if_neg h2]
  have hbest_le_d : best ≤ d :=
    le_trans (min_le_left _ _) (min_le_left _ _)
  have hbest_le_di : best ≤ di :=
    le_trans (min_le_left _ _) (min_le_right _ _)
  have hbest_le_dj : best ≤ dj := min_le_right _ _
  have hnewEdge : (i, j, d) ∈ done ++ [(i, j, d)] :=
    List.mem_append_right _ (by simp)
  refine ⟨hinv4, ?_, ?_, ?_, ?_, ?_⟩
  · -- bounds
    intro a b dd hmem
    rcases List.mem_append.mp hmem with hold | hnew
    · exact hbounds a b dd hold
    · simp only [List.mem_singleton, Prod.mk.injEq] at hnew
      obtain ⟨ha, hb, hdd⟩ := hnew
      rw [ha, hb, hdd]
      exact ⟨hi, hj, hd⟩
  · -- ends
    intro a b dd hmem
    rcases List.mem_append.mp hmem with hold | hnew
    · obtain ⟨ha, hb, _⟩ := hbounds a b dd hold
      have he := hends a b dd hold
      rw [hrootN4 a ha, hrootN4 b hb, he]
    · simp only [List.mem_singleton, Prod.mk.injEq] at hnew
      obtain ⟨ha, hb, hdd⟩ := hnew
      rw [ha, hb, hp4i, hp4j]
  · -- mdSome
    intro r v hroot hlook
    by_cases hr : r = ri
    · rw [hr, mdLookup_insert_self] at hlook
      have hv : v = best := by
        injection hlook with hlook
        exact hlook.symm
      rw [hr, hv]
      constructor
      · -- best is attained by an edge of the merged class
        rcases hmdi : mdLookup md ri with _ | vi <;>
          rcases hmdj : mdLookup md rj with _ | vj
        · -- no tracked minimum on either side: best = d
          have hbe : best = d := by
            rw [hbest, hdi, hdj, hmdi, hmdj]
            simp [Nat.min_eq_left hd, Nat.min_eq_left (le_trans (min_le_left d UMAX) hd)]
          rw [hbe]
          exact ⟨i, j, hnewEdge, hp4i⟩
        · -- only rj has a tracked minimum
          have hdi' : di = UMAX := by rw [hdi, hmdi]; rfl
          have hdj' : dj = vj := by rw [hdj, hmdj]; rfl
          have hbe : best = min d vj := by
            rw [hbest, hdi', hdj', Nat.min_eq_left hd]
          rcases Nat.le_total d vj with hcmp | hcmp
          · rw [hbe, Nat.min_eq_left hcmp]
            exact ⟨i, j, hnewEdge, hp4i⟩
          · obtain ⟨⟨a, b, hmem, hra⟩, _⟩ := hmdSome rj vj hrj_root hmdj
            obtain ⟨ha, _, _⟩ := hbounds a b vj hmem
            rw [hbe, Nat.min_eq_right hcmp]
            exact ⟨a, b, List.mem_append_left _ hmem,
              (hclass a ha).mpr (Or.inr hra)⟩
        · -- only ri has a tracked minimum
          have hdi' : di = vi := by rw [hdi, hmdi]; rfl
          have hdj' : dj = UMAX := by rw [hdj, hmdj]; rfl
          have hbe : best = min d vi := by
            rw [hbest, hdi', hdj']
            exact Nat.min_eq_left (le_trans (min_le_left d vi) hd)
          rcases Nat.le_total d vi with hcmp | hcmp
          · rw [hbe, Nat.min_eq_left hcmp]
            exact ⟨i, j, hnewEdge, hp4i⟩
          · obtain ⟨⟨a, b, hmem, hra⟩, _⟩ := hmdSome ri vi hri_root hmdi
            obtain ⟨ha, _, _⟩ := hbounds a b vi hmem
            rw [hbe, Nat.min_eq_right hcmp]
            exact ⟨a, b, List.mem_append_left _ hmem,
              (hclass a ha).mpr (Or.inl hra)⟩
        · -- both sides tracked
          have hdi' : di = vi := by rw [hdi, hmdi]; rfl
          have hdj' : dj = vj := by rw [hdj, hmdj]; rfl
          have hbe : best = min (min d vi) vj := by rw [hbest, hdi', hdj']
          rcases Nat.le_total (min d vi) vj with hcmp | hcmp
          · rcases Nat.le_total d vi with hcmp2 | hcmp2
            · rw [hbe, Nat.min_eq_left hcmp, Nat.min_eq_left hcmp2]
              exact ⟨i, j, hnewEdge, hp4i⟩
            · obtain ⟨⟨a, b, hmem, hra⟩, _⟩ := hmdSome ri vi hri_root hmdi
              obtain ⟨ha, _, _⟩ := hbounds a b vi hmem
              rw [hbe, Nat.min_eq_left hcmp, Nat.min_eq_right hcmp2]
              exact ⟨a, b, List.mem_append_left _ hmem,
                (hclass a ha).mpr (Or.inl hra)⟩
          · obtain ⟨⟨a, b, hmem, hra⟩, _⟩ := hmdSome rj vj hrj_root hmdj
            obtain ⟨ha, _, _⟩ := hbounds a b vj hmem
            rw [hbe, Nat.min_eq_right hcmp]
            exact ⟨a, b, List.mem_append_left _ hmem,
              (hclass a ha).mpr (Or.inr hra)⟩
      · -- best is a lower bound for the merged class
        intro dd ⟨a, b, hmem, hra⟩
        rcases List.mem_append.mp hmem with hold | hnew
        · obtain ⟨ha, hb, _⟩ := hbounds a b dd hold
          rcases (hclass a ha).mp hra with h2 | h2
          · rcases hmdi : mdLookup md ri with _ | vi
            · exact absurd ⟨a, b, hold, h2⟩ (hmdNone ri hri_root hmdi dd)
            · obtain ⟨_, hbound⟩ := hmdSome ri vi hri_root hmdi
              have : vi ≤ dd := hbound dd ⟨a, b, hold, h2⟩
              have hdi' : di = vi := by rw [hdi, hmdi]; rfl
              exact le_trans (hdi' ▸ hbest_le_di) this
          · rcases hmdj : mdLookup md rj with _ | vj
            · exact absurd ⟨a, b, hold, h2⟩ (hmdNone rj hrj_root hmdj dd)
            · obtain ⟨_, hbound⟩ := hmdSome rj vj hrj_root hmdj
              have : vj ≤ dd := hbound dd ⟨a, b, hold, h2⟩
              have hdj' : dj = vj := by rw [hdj, hmdj]; rfl
              exact le_trans (hdj' ▸ hbest_le_dj) this
        · simp only [List.mem_singleton, Prod.mk.injEq] at hnew
          obtain ⟨_, _, hdd⟩ := hnew
          rw [hdd]
          exact hbest_le_d
    · -- untouched root
      rw [mdLookup_insert_ne md best hr] at hlook
      have hroot' := (hroots4 r).mp hroot
      have hrj' : r ≠ rj := by
        rcases hroot'.2 with hc | hc
        · rw [← hc] at *
          exact hr
        · exact hc
      obtain ⟨⟨a, b, hmem, hra⟩, hbound⟩ := hmdSome r v hroot'.1 hlook
      obtain ⟨ha, _, _⟩ := hbounds a b v hmem
      constructor
      · exact ⟨a, b, List.mem_append_left _ hmem,
          (hclass_ne r hr hrj' a ha).mpr hra⟩
      · intro dd ⟨a', b', hmem', hra'⟩
        rcases List.mem_append.mp hmem' with hold | hnew
        · obtain ⟨ha', _, _⟩ := hbounds a' b' dd hold
          exact hbound dd ⟨a', b', hold, (hclass_ne r hr hrj' a' ha').mp hra'⟩
        · simp only [List.mem_singleton, Prod.mk.injEq] at hnew
          obtain ⟨ha', _, _⟩ := hnew
          have hra2 : rootN n p4 a' = r := hra'
          rw [ha', hp4i] at hra2
          exact absurd hra2.symm hr
  · -- mdNone
    intro r hroot hlook dd hce
    by_cases hr : r = ri
    · rw [hr, mdLookup_insert_self] at hlook
      exact Option.noConfusion hlook
    · rw [mdLookup_insert_ne md best hr] at hlook
      have hroot' := (hroots4 r).mp hroot
      have hrj' : r ≠ rj := by
        rcases hroot'.2 with hc | hc
        · rw [← hc] at *
          exact hr
        · exact hc
      obtain ⟨a, b, hmem, hra⟩ := hce
      rcases List.mem_append.mp hmem with hold | hnew
      · obtain ⟨ha, _, _⟩ := hbounds a b dd hold
        exact hmdNone r hroot'.1 hlook dd
          ⟨a, b, hold, (hclass_ne r hr hrj' a ha).mp hra⟩
      · simp only [List.mem_singleton, Prod.mk.injEq] at hnew
        obtain ⟨ha, _, _⟩ := hnew
        have hra2 : rootN n p4 a = r := hra
        rw [ha, hp4i] at hra2
        exact absurd hra2.symm hr
  · -- nontriv
    intro x y hx hy hreq hne
    by_cases hcase : rootN n p4 x = ri
    · rw [hcase]
      exact ⟨d, i, j, hnewEdge, hp4i⟩
    · have hx' : rootN n p4 x = rootN n p x := by
        rw [hrootN4 x hx]
        by_cases h2 : rootN n p x = rj
        · exfalso
          apply hcase
          rw [hrootN4 x hx, if_pos h2]
        · rw [if_neg h2]
      have hy' : rootN n p4 y = rootN n p y := by
        rw [hrootN4 y hy]
        by_cases h2 : rootN n p y = rj
        · exfalso
          apply hcase
          rw [hreq, hrootN4 y hy, if_pos h2]
        · rw [if_neg h2]
      have hrj' : rootN n p4 x ≠ rj := by
        intro hc
        have h2 : rootN n p x = rj := by rw [← hx', hc]
        apply hcase
        rw [hrootN4 x hx, if_pos h2]
      have hold : rootN n p x = rootN n p y := by
        rw [← hx', ← hy', hreq]
      obtain ⟨dd, a, b, hmem, hra⟩ := hnontriv x y hx hy hold hne
      obtain ⟨ha, _, _⟩ := hbounds a b dd hmem
      refine ⟨dd, a, b, List.mem_append_left _ hmem, ?_⟩
      rw [hx']
      rw [(hclass_ne (rootN n p x) (by rw [← hx']; exact hcase)
        (by rw [← hx']; exact hrj') a ha)]
      exact hra

/-! ## The union-find fold: initial state, preservation, characterization -/

theorem UFInv_id (n : Nat) : UFInv n (fun x => x) :=
  ⟨fun _ hx => hx, fun x _ => ⟨0, rfl⟩⟩

theorem rootN_id (n x : Nat) : rootN n (fun x => x) x = x :=
  pIter_fix (show isRootP (fun x => x) x from rfl) n

theorem VF_init (n : Nat) : VF n [] ((fun x => x), []) := by
  refine ⟨UFInv_id n, ?_, ?_, ?_, ?_, ?_⟩
  · intro a b dd hmem
    exact absurd hmem (List.not_mem_nil _)
  · intro a b dd hmem
    exact absurd hmem (List.not_mem_nil _)
  · intro r v _ hlook
    exact absurd hlook (by simp [mdLookup])
  · intro r _ _ dd hce
    obtain ⟨a, b, hmem, _⟩ := hce
    exact absurd hmem (List.not_mem_nil _)
  · intro x y hx hy hreq hne
    exfalso
    apply hne
    have h1 : rootN n (fun x => x) x = x := rootN_id n x
    have h2 : rootN n (fun x => x) y = y := rootN_id n y
    rw [h1, h2] at hreq
    exact hreq

theorem VF_fold {n : Nat} :
    ∀ (l : List (Nat × Nat × Nat)) (done : List (Nat × Nat × Nat))
      (st : (Nat → Nat) × List (Nat × Nat)),
      VF n done st → (∀ e ∈ l, e.1 < n ∧ e.2.1 < n ∧ e.2.2 ≤ UMAX) →
      VF n (done ++ l) (l.foldl (processEdge n) st) := by
  intro l
  induction l with
  | nil =>
    intro done st hvf _
    simpa using hvf
  | cons e l ih =>
    intro done st hvf hb
    obtain ⟨p, md⟩ := st
    obtain ⟨i, j, d⟩ := e
    have he := hb (i, j, d) (by simp)
    have hstep := VF_step hvf he.1 he.2.1 he.2.2
    have hrest := ih (done ++ [(i, j, d)]) _ hstep
      (fun e' he' => hb e' (List.mem_cons_of_mem _ he'))
    rw [List.append_assoc] at hrest
    simpa using hrest

/-- Membership characterization of matching_pairs: exactly the ordered
position pairs within the threshold, tagged with their distance. -/
theorem mem_matchingPairs {pa : List (Nat × List Nat)} {T i j d : Nat} :
    (i, j, d) ∈ matchingPairs pa T ↔
      (i < j ∧ j < pa.length ∧
        d = hamming_distance (phashAt pa i) (phashAt pa j) ∧ d ≤ T) := by
  unfold matchingPairs
  rw [List.mem_flatMap]
  constructor
  · rintro ⟨i', hi', hmem⟩
    rw [List.mem_filterMap] at hmem
    obtain ⟨j', hj', hf⟩ := hmem
    rw [List.mem_range] at hi'
    rw [List.mem_range'_1] at hj'
    have hf' : (if hamming_distance (phashAt pa i') (phashAt pa j') ≤ T then
        some (i', j', hamming_distance (phashAt pa i') (phashAt pa j'))
      else none) = some (i, j, d) := hf
    by_cases hle : hamming_distance (phashAt pa i') (phashAt pa j') ≤ T
    · rw [if_pos hle] at hf'
      simp only [Option.some.injEq, Prod.mk.injEq] at hf'
      obtain ⟨h1, h2, h3⟩ := hf'
      rw [← h1, ← h2, ← h3]
      refine ⟨by omega, by omega, rfl, hle⟩
    · rw [if_neg hle] at hf'
      exact absurd hf' (by simp)
  · rintro ⟨hij, hjlen, hd, hdT⟩
    refine ⟨i, List.mem_range.mpr (lt_trans hij hjlen), ?_⟩
    rw [List.mem_filterMap]
    refine ⟨j, ?_, ?_⟩
    · rw [List.mem_range'_1]
      omega
    · show (if hamming_distance (phashAt pa i) (phashAt pa j) ≤ T then
          some (i, j, hamming_distance (phashAt pa i) (phashAt pa j))
        else none) = some (i, j, d)
      rw [← hd, if_pos hdT]

/-- The invariant at the end of the union-find fold of find_duplicates. -/
theorem VF_final (hashes : List (Nat × ImageHashes)) (T : Nat) (hT : T ≤ UMAX) :
    VF (nonExact hashes).length (matchingPairs (nonExact hashes) T)
      (visualFoldState hashes T) := by
  have hb : ∀ e ∈ matchingPairs (nonExact hashes) T,
      e.1 < (nonExact hashes).length ∧ e.2.1 < (nonExact hashes).length ∧
        e.2.2 ≤ UMAX := by
    rintro ⟨i, j, d⟩ he
    obtain ⟨h1, h2, _, h4⟩ := mem_matchingPairs.mp he
    exact ⟨lt_trans h1 h2, h2, le_trans h4 hT⟩
  have h := VF_fold (matchingPairs (nonExact hashes) T) [] ((fun x => x), [])
    (VF_init _) hb
  simpa [visualFoldState] using h

/-! ## Lemmas: cluster collection and grouping -/

theorem collect_go {n : Nat} {pa : List (Nat × List Nat)} {pF : Nat → Nat} :
    ∀ (l : List Nat) (p : Nat → Nat) (acc : List (Nat × List Nat)),
      UFInv n p → (∀ y, y < n → rootN n p y = rootN n pF y) →
      (∀ i ∈ l, i < n) →
      (l.foldl (fun st i =>
        ((ufFind n st.1 i).1, addToGroup st.2 (ufFind n st.1 i).2 (idxAt pa i)))
        (p, acc)).2
      = l.foldl (fun acc i => addToGroup acc (rootN n pF i) (idxAt pa i)) acc := by
  intro l
  induction l with
  | nil =>
    intro p acc _ _ _
    rfl
  | cons i l ih =>
    intro p acc hinv hpres hlt
    have hi : i < n := hlt i (by simp)
    obtain ⟨hfr, hinv', _, hrootN'⟩ := ufFind_n hinv hi
    simp only [List.foldl_cons]
    rw [show ((ufFind n p i).1, addToGroup acc (ufFind n p i).2 (idxAt pa i)) =
      ((ufFind n p i).1, addToGroup acc (rootN n pF i) (idxAt pa i)) by
        rw [hfr, hpres i hi]]
    exact ih (ufFind n p i).1 _ hinv'
      (fun y hy => by rw [hrootN' y hy, hpres y hy])
      (fun i' hi' => hlt i' (List.mem_cons_of_mem _ hi'))

/-- The clusters are the positions below n grouped by final root. -/
theorem collectClusters_eq {n : Nat} {pa : List (Nat × List Nat)}
    {p : Nat → Nat} (h : UFInv n p) :
    (collectClusters n pa p).2 =
      groupPairs ((List.range n).map (fun i => (rootN n p i, idxAt pa i))) := by
  unfold collectClusters groupPairs
  rw [List.foldl_map]
  exact collect_go (List.range n) p [] h (fun _ _ => rfl)
    (fun i hi => List.mem_range.mp hi)

/-! ## Lemmas: grouping association lists -/

section GroupingLemmas

variable {κ α : Type} [DecidableEq κ]

theorem glookup_addToGroup_self (acc : List (κ × List α)) (k : κ) (a : α) :
    glookup (addToGroup acc k a) k = some ((glookup acc k).getD [] ++ [a]) := by
  induction acc with
  | nil => simp [addToGroup, glookup]
  | cons kv rest ih =>
    by_cases hk : kv.1 = k
    · simp [addToGroup, glookup, hk]
    · simp only [addToGroup, glookup, hk, ite_false]
      exact ih

theorem glookup_addToGroup_ne (acc : List (κ × List α)) {k k' : κ} (a : α)
    (h : k' ≠ k) : glookup (addToGroup acc k a) k' = glookup acc k' := by
  induction acc with
  | nil =>
    simp only [addToGroup, glookup]
    rw [if_neg (fun h2 => h h2.symm)]
  | cons kv rest ih =>
    by_cases hk : kv.1 = k
    · simp only [addToGroup, glookup, hk, ite_true]
      rw [if_neg (fun h2 => h h2.symm), if_neg (fun h2 => h h2.symm)]
    · simp only [addToGroup, glookup, hk, ite_false]
      by_cases hk' : kv.1 = k'
      · simp [hk']
      · simp [hk', ih]

theorem addToGroup_keys (acc : List (κ × List α)) (k : κ) (a : α) :
    (addToGroup acc k a).map Prod.fst =
      if k ∈ acc.map Prod.fst then acc.map Prod.fst
      else acc.map Prod.fst ++ [k] := by
  induction acc with
  | nil => simp [addToGroup]
  | cons kv rest ih =>
    by_cases hk : kv.1 = k
    · simp [addToGroup, hk]
    · have hne : k ≠ kv.1 := fun h2 => hk h2.symm
      simp only [addToGroup, hk, ite_false, List.map_cons, ih]
      by_cases hmem : k ∈ rest.map Prod.fst
      · rw [if_pos hmem, if_pos (by simp [List.mem_cons, hmem])]
      · rw [if_neg hmem, if_neg (by simp [List.mem_cons, hne, hmem])]
        rfl

theorem mem_of_glookup {acc : List (κ × List α)} {k : κ} {v : List α}
    (h : glookup acc k = some v) : (k, v) ∈ acc := by
  induction acc with
  | nil => simp [glookup] at h
  | cons kv rest ih =>
    rcases kv with ⟨k0, v0⟩
    by_cases hk : k0 = k
    · simp only [glookup, hk, ite_true, Option.some.injEq] at h
      refine List.mem_cons.mpr (Or.inl ?_)
      rw [hk, h]
    · simp only [glookup, hk, ite_false] at h
      exact List.mem_cons_of_mem _ (ih h)

theorem glookup_of_mem {acc : List (κ × List α)} {k : κ} {v : List α}
    (hnd : (acc.map Prod.fst).Nodup) (h : (k, v) ∈ acc) :
    glookup acc k = some v := by
  induction acc with
  | nil => exact absurd h (List.not_mem_nil _)
  | cons kv rest ih =>
    rcases List.mem_cons.mp h with heq | hmem
    · rw [← heq]
      simp [glookup]
    · have hk : kv.1 ≠ k := by
        intro hc
        have : k ∈ rest.map Prod.fst :=
          List.mem_map.mpr ⟨(k, v), hmem, rfl⟩
        rw [List.map_cons, List.nodup_cons, hc] at hnd
        exact hnd.1 this
      simp only [glookup, hk, ite_false]
      exact ih (by rw [List.map_cons, List.nodup_cons] at hnd; exact hnd.2) hmem

theorem groupVals_append (l : List (κ × α)) (k k' : κ) (a : α) :
    groupVals (l ++ [(k, a)]) k' =
      groupVals l k' ++ (if k = k' then [a] else []) := by
  unfold groupVals
  rw [List.filter_append, List.map_append]
  by_cases hk : k = k'
  · simp [hk]
  · simp [hk]

theorem mem_groupVals {l : List (κ × α)} {k : κ} {a : α} :
    a ∈ groupVals l k ↔ (k, a) ∈ l := by
  unfold groupVals
  rw [List.mem_map]
  constructor
  · rintro ⟨ka, hmem, hsnd⟩
    rw [List.mem_filter] at hmem
    have h1 := of_decide_eq_true hmem.2
    have : ka = (k, a) := by
      rcases ka with ⟨k0, a0⟩
      simp only at h1 hsnd
      rw [h1, hsnd]
    rw [← this]
    exact hmem.1
  · intro h
    exact ⟨(k, a), List.mem_filter.mpr ⟨h, by simp⟩, rfl⟩

theorem GInv_nil : GInv ([] : List (κ × α)) [] := by
  refine ⟨by simp, fun k => ⟨fun _ => rfl, fun h => absurd rfl h⟩⟩

theorem GInv_step {processed : List (κ × α)} {acc : List (κ × List α)}
    (h : GInv processed acc) (k : κ) (a : α) :
    GInv (processed ++ [(k, a)]) (addToGroup acc k a) := by
  obtain ⟨hnd, hlook⟩ := h
  constructor
  · rw [addToGroup_keys]
    by_cases hmem : k ∈ acc.map Prod.fst
    · rw [if_pos hmem]
      exact hnd
    · rw [if_neg hmem]
      simp only [List.nodup_append, List.nodup_cons]
      exact ⟨hnd, by simp, by simpa using fun hc => hmem hc⟩
  · intro k'
    by_cases hk : k' = k
    · rw [hk]
      constructor
      · intro hemp
        rw [groupVals_append, if_pos rfl] at hemp
        exact absurd hemp (by simp)
      · intro _
        rw [glookup_addToGroup_self, groupVals_append, if_pos rfl]
        by_cases hempty : groupVals processed k = []
        · rw [(hlook k).1 hempty, hempty]
          simp
        · rw [(hlook k).2 hempty]
          simp
    · have hgv : groupVals (processed ++ [(k, a)]) k' = groupVals processed k' := by
        rw [groupVals_append, if_neg (fun h2 => hk h2.symm), List.append_nil]
      rw [glookup_addToGroup_ne acc a hk, hgv]
      exact hlook k'

theorem GInv_groupPairs (l : List (κ × α)) : GInv l (groupPairs l) := by
  induction l using List.reverseRecOn with
  | nil => exact GInv_nil
  | append_singleton l ka ih =>
    have : groupPairs (l ++ [ka]) = addToGroup (groupPairs l) ka.1 ka.2 := by
      unfold groupPairs
      rw [List.foldl_append]
      rfl
    rw [this]
    rcases ka with ⟨k, a⟩
    exact GInv_step ih k a

/-- A pair is in the grouping exactly when its value list is the full list
of values carried by its key and that list is nonempty. -/
theorem mem_groupPairs {l : List (κ × α)} {k : κ} {v : List α} :
    (k, v) ∈ groupPairs l ↔ (v = groupVals l k ∧ v ≠ []) := by
  obtain ⟨hnd, hlook⟩ := GInv_groupPairs l
  constructor
  · intro h
    have hsome := glookup_of_mem hnd h
    by_cases hempty : groupVals l k = []
    · rw [(hlook k).1 hempty] at hsome
      exact absurd hsome (by simp)
    · rw [(hlook k).2 hempty] at hsome
      injection hsome with hv
      exact ⟨hv.symm, hv ▸ hempty⟩
  · rintro ⟨hv, hne⟩
    have hempty : groupVals l k ≠ [] := by rw [← hv]; exact hne
    rw [hv]
    exact mem_of_glookup ((hlook k).2 hempty)

theorem groupPairs_keys_nodup (l : List (κ × α)) :
    ((groupPairs l).map Prod.fst).Nodup :=
  (GInv_groupPairs l).1

end GroupingLemmas

/-! ## Standalone specification of one union-find loop iteration -/

/-- One iteration of the loop: the merged cluster roots at the root of i,
its tracked minimum becomes the least of the edge distance and the two
previous trackers (u32::MAX standing for an absent tracker), and every
other class is untouched. -/
theorem processEdge_spec (n : Nat) (p : Nat → Nat) (md : List (Nat × Nat))
    (i j d : Nat) (hinv : UFInv n p) (hi : i < n) (hj : j < n) :
    (processEdge n (p, md) (i, j, d)).2 =
      mdInsert md (rootN n p i)
        (min (min d ((mdLookup md (rootN n p i)).getD UMAX))
          ((mdLookup md (rootN n p j)).getD UMAX)) ∧
    UFInv n (processEdge n (p, md) (i, j, d)).1 ∧
    (∀ y, y < n → rootN n (processEdge n (p, md) (i, j, d)).1 y =
      if rootN n p y = rootN n p j then rootN n p i else rootN n p y) := by
  obtain ⟨hf1r, hinv1, hroots1, hrootN1⟩ := ufFind_n hinv hi
  set p1 := (ufFind n p i).1 with hp1
  obtain ⟨hf2r, hinv2, hroots2, hrootN2⟩ := ufFind_n hinv1 hj
  set p2 := (ufFind n p1 j).1 with hp2
  set ri := rootN n p i with hri
  set rj := rootN n p j with hrj
  have hf2r' : (ufFind n p1 j).2 = rj := by rw [hf2r, hrootN1 j hj]
  have hrootN2' : ∀ y, y < n → rootN n p2 y = rootN n p y := by
    intro y hy
    rw [hrootN2 y hy, hrootN1 y hy]
  obtain ⟨hinv3, hrootN3raw, _⟩ := ufUnion_spec hinv2 hi hj
  set p3 := ufUnion n p2 i j with hp3
  have hrootN3 : ∀ y, y < n →
      rootN n p3 y = if rootN n p y = rj then ri else rootN n p y := by
    intro y hy
    rw [hrootN3raw y hy, hrootN2' y hy, hrootN2' i hi, hrootN2' j hj]
  have hri3 : rootN n p3 i = ri := by
    rw [hrootN3 i hi]
    split_ifs <;> rfl
  obtain ⟨hf4r, hinv4, _, hrootN4raw⟩ := ufFind_n hinv3 hi
  set p4 := (ufFind n p3 i).1 with hp4
  have hf4r' : (ufFind n p3 i).2 = ri := by rw [hf4r, hri3]
  have hpe : processEdge n (p, md) (i, j, d) =
      (p4, mdInsert md ri (min (min d ((mdLookup md ri).getD UMAX))
        ((mdLookup md rj).getD UMAX))) := by
    rw [processEdge_eq, ← hp1, ← hp2, ← hp3, hf4r', ← hp4, hf1r, hf2r']
    rw [min_assoc d _ _, min_self]
  rw [hpe]
  refine ⟨rfl, hinv4, ?_⟩
  intro y hy
  rw [hrootN4raw y hy, hrootN3 y hy]

/-- Folding edges whose endpoints agree under f keeps every class constant
under f. -/
theorem fold_respects {n : Nat} {β : Type} (f : Nat → β) :
    ∀ (l : List (Nat × Nat × Nat)) (p : Nat → Nat) (md : List (Nat × Nat)),
      UFInv n p →
      (∀ e ∈ l, e.1 < n ∧ e.2.1 < n ∧ f e.1 = f e.2.1) →
      (∀ x y, x < n → y < n → rootN n p x = rootN n p y → f x = f y) →
      UFInv n (l.foldl (processEdge n) (p, md)).1 ∧
      (∀ x y, x < n → y < n →
        rootN n (l.foldl (processEdge n) (p, md)).1 x =
          rootN n (l.foldl (processEdge n) (p, md)).1 y → f x = f y) := by
  intro l
  induction l with
  | nil =>
    intro p md hinv _ hresp
    exact ⟨hinv, hresp⟩
  | cons e l ih =>
    intro p md hinv hedge hresp
    obtain ⟨i, j, d⟩ := e
    have he := hedge (i, j, d) (by simp)
    obtain ⟨hi, hj, hfij⟩ := he
    obtain ⟨_, hinv', hrootN'⟩ := processEdge_spec n p md i j d hinv hi hj
    rcases hst : processEdge n (p, md) (i, j, d) with ⟨p', md'⟩
    rw [hst] at hinv' hrootN'
    have hresp' : ∀ x y, x < n → y < n → rootN n p' x = rootN n p' y →
        f x = f y := by
      intro x y hx hy heq
      rw [hrootN' x hx, hrootN' y hy] at heq
      by_cases hcx : rootN n p x = rootN n p j <;>
        by_cases hcy : rootN n p y = rootN n p j
      · exact hresp x y hx hy (hcx.trans hcy.symm)
      · rw [if_pos hcx, if_neg hcy] at heq
        have hfx : f x = f j := hresp x j hx hj hcx
        have hfy : f y = f i := hresp y i hy hi heq.symm
        rw [hfx, hfy, hfij]
      · rw [if_neg hcx, if_pos hcy] at heq
        have hfy : f y = f j := hresp y j hy hj hcy
        have hfx : f x = f i := hresp x i hx hi heq
        rw [hfx, hfy, hfij]
      · rw [if_neg hcx, if_neg hcy] at heq
        exact hresp x y hx hy heq
    have := ih p' md' hinv'
      (fun e' he' => hedge e' (List.mem_cons_of_mem _ he')) hresp'
    simpa [hst] using this

/-! ## Lemmas: the exact phase of find_duplicates -/

/-- The value list of a content hash in sha_groups: the indices of the
entries carrying that hash, in input order. -/
theorem shaGroups_vals (hashes : List (Nat × ImageHashes)) (c : List Nat) :
    groupVals (hashes.map (fun ih => (ih.2.content_hash, ih.1))) c =
      (hashes.filter (fun ih => decide (ih.2.content_hash = c))).map Prod.fst := by
  unfold groupVals
  rw [List.filter_map, List.map_map]
  rfl

theorem mem_exactGroups {hashes : List (Nat × ImageHashes)} {g : DuplicateGroup} :
    g ∈ exactGroups hashes ↔
      ∃ k v, (k, v) ∈ shaGroups hashes ∧ 1 < v.length ∧
        g = ⟨MatchKind.Exact, v⟩ := by
  unfold exactGroups
  rw [List.mem_filterMap]
  constructor
  · rintro ⟨⟨k, v⟩, hmem, hf⟩
    by_cases hlen : 1 < v.length
    · rw [if_pos hlen] at hf
      injection hf with hf
      exact ⟨k, v, hmem, hlen, hf.symm⟩
    · rw [if_neg hlen] at hf
      exact absurd hf (by simp)
  · rintro ⟨k, v, hmem, hlen, hg⟩
    refine ⟨(k, v), hmem, ?_⟩
    rw [if_pos hlen, hg]

theorem foldl_collect_mem (x : Nat) :
    ∀ (l : List (List Nat × List Nat)) (init : List Nat),
      x ∈ l.foldl (fun s kv => if 1 < kv.2.length then s ++ kv.2 else s) init ↔
        x ∈ init ∨ ∃ kv ∈ l, 1 < kv.2.length ∧ x ∈ kv.2 := by
  intro l
  induction l with
  | nil => simp
  | cons kv l ih =>
    intro init
    rw [List.foldl_cons, ih]
    by_cases hlen : 1 < kv.2.length
    · rw [if_pos hlen, List.mem_append]
      constructor
      · rintro (⟨h | h⟩ | h)
        · exact Or.inl h
        · exact Or.inr ⟨kv, by simp, hlen, h⟩
        · obtain ⟨kv', hkv', h1, h2⟩ := h
          exact Or.inr ⟨kv', List.mem_cons_of_mem _ hkv', h1, h2⟩
      · rintro (h | ⟨kv', hkv', h1, h2⟩)
        · exact Or.inl (Or.inl h)
        · rcases List.mem_cons.mp hkv' with heq | hmem
          · exact Or.inl (Or.inr (by rw [heq] at h2; exact h2))
          · exact Or.inr ⟨kv', hmem, h1, h2⟩
    · rw [if_neg hlen]
      constructor
      · rintro (h | ⟨kv', hkv', h1, h2⟩)
        · exact Or.inl h
        · exact Or.inr ⟨kv', List.mem_cons_of_mem _ hkv', h1, h2⟩
      · rintro (h | ⟨kv', hkv', h1, h2⟩)
        · exact Or.inl h
        · rcases List.mem_cons.mp hkv' with heq | hmem
          · rw [heq] at h1
            exact absurd h1 hlen
          · exact Or.inr ⟨kv', hmem, h1, h2⟩

theorem mem_exactMatched {hashes : List (Nat × ImageHashes)} {x : Nat} :
    x ∈ exactMatched hashes ↔
      ∃ kv ∈ shaGroups hashes, 1 < kv.2.length ∧ x ∈ kv.2 := by
  unfold exactMatched
  rw [foldl_collect_mem]
  simp

theorem mem_nonExact {hashes : List (Nat × ImageHashes)} {i : Nat}
    {ph : List Nat} :
    (i, ph) ∈ nonExact hashes ↔
      ∃ H, (i, H) ∈ hashes ∧ H.perceptual_hash = ph ∧
        i ∉ exactMatched hashes := by
  unfold nonExact
  rw [List.mem_map]
  constructor
  · rintro ⟨⟨i', H⟩, hmem, heq⟩
    rw [List.mem_filter] at hmem
    have hni := of_decide_eq_true hmem.2
    simp only [Prod.mk.injEq] at heq
    obtain ⟨h1, h2⟩ := heq
    rw [← h1]
    exact ⟨H, hmem.1, h2, hni⟩
  · rintro ⟨H, hmem, hph, hni⟩
    exact ⟨(i, H), List.mem_filter.mpr ⟨hmem, by simpa using hni⟩,
      by rw [hph]⟩

theorem nonExact_fst_nodup {hashes : List (Nat × ImageHashes)}
    (h : (hashes.map Prod.fst).Nodup) :
    ((nonExact hashes).map Prod.fst).Nodup := by
  unfold nonExact
  rw [List.map_map]
  have hsub : (hashes.filter
      (fun ih => decide (ih.1 ∉ exactMatched hashes))).Sublist hashes :=
    List.filter_sublist _
  have := (hsub.map Prod.fst).nodup h
  convert this using 2

/-! ## Lemmas: list access helpers -/

theorem getD_mem : ∀ (l : List (Nat × List Nat)) (i : Nat),
    i < l.length → l.getD i (0, []) ∈ l := by
  intro l
  induction l with
  | nil =>
    intro i hi
    exact absurd hi (by simp)
  | cons a l ih =>
    intro i hi
    match i with
    | 0 => exact List.mem_cons_self _ _
    | i + 1 =>
      have := ih i (by simpa using hi)
      exact List.mem_cons_of_mem _ (by simpa using this)

theorem idxAt_ne_of_nodup {pa : List (Nat × List Nat)}
    (hnd : (pa.map Prod.fst).Nodup) {a b : Nat} (ha : a < pa.length)
    (hb : b < pa.length) (hab : a ≠ b) : idxAt pa a ≠ idxAt pa b := by
  intro hc
  unfold idxAt at hc
  rw [List.getD_eq_getElem pa (0, []) ha, List.getD_eq_getElem pa (0, []) hb] at hc
  have ha' : a < (pa.map Prod.fst).length := by simpa using ha
  have hb' : b < (pa.map Prod.fst).length := by simpa using hb
  have hma : (pa.map Prod.fst)[a] = pa[a].1 := by simp
  have hmb : (pa.map Prod.fst)[b] = pa[b].1 := by simp
  have heq : (pa.map Prod.fst)[a] = (pa.map Prod.fst)[b] := by
    rw [hma, hmb, hc]
  exact hab (hnd.getElem_inj_iff.mp heq)

theorem two_mem_of_one_lt_length {l : List Nat} (hnd : l.Nodup)
    (hlen : 1 < l.length) : ∃ a b, a ∈ l ∧ b ∈ l ∧ a ≠ b := by
  match l, hlen with
  | a :: b :: rest, _ =>
    refine ⟨a, b, by simp, by simp, ?_⟩
    intro hc
    rw [List.nodup_cons] at hnd
    exact hnd.1 (by rw [hc]; simp)

/-! ## Lemmas: hamming distance -/

theorem hamming_comm (a b : List Nat) :
    hamming_distance a b = hamming_distance b a := by
  unfold hamming_distance
  rw [← List.zip_swap a b, List.map_map]
  congr 1
  apply List.map_congr_left
  intro xy _
  have hcomm : ∀ u v : Nat, Nat.xor u v = Nat.xor v u := fun u v =>
    Nat.xor_comm u v
  show popcount8 (Nat.xor xy.1 xy.2) = popcount8 (Nat.xor xy.2 xy.1)
  rw [hcomm xy.1 xy.2]

theorem popcount8Aux_eq_zero :
    ∀ (fuel z : Nat), z < 2 ^ fuel → popcount8Aux fuel z = 0 → z = 0 := by
  intro fuel
  induction fuel with
  | zero =>
    intro z hz _
    omega
  | succ fuel ih =>
    intro z hz h0
    unfold popcount8Aux at h0
    have h1 : z % 2 = 0 := by omega
    have h2 : popcount8Aux fuel (z / 2) = 0 := by omega
    have h3 : z / 2 < 2 ^ fuel := by
      rw [pow_succ] at hz
      omega
    have := ih (z / 2) h3 h2
    omega

theorem hamming_eq_zero :
    ∀ (a b : List Nat), a.length = b.length →
      (∀ x ∈ a, x < 256) → (∀ x ∈ b, x < 256) →
      hamming_distance a b = 0 → a = b := by
  intro a
  induction a with
  | nil =>
    intro b hlen _ _ _
    exact (List.length_eq_zero.mp hlen.symm).symm
  | cons x a ih =>
    intro b hlen hba hbb h0
    match b with
    | [] => exact absurd hlen (by simp)
    | y :: b =>
      unfold hamming_distance at h0
      simp only [List.zip_cons_cons, List.map_cons, List.sum_cons] at h0
      have hx : x < 256 := hba x (by simp)
      have hy : y < 256 := hbb y (by simp)
      have hxor : Nat.xor x y < 256 := by
        have := Nat.xor_lt_two_pow (n := 8) (by simpa using hx) (by simpa using hy)
        simpa using this
      have hp0 : popcount8 (Nat.xor x y) = 0 := by omega
      have hxy : x = y :=
        Nat.xor_eq_zero.mp (popcount8Aux_eq_zero 8 _ hxor hp0)
      have hrest : hamming_distance a b = 0 := by
        unfold hamming_distance
        omega
      have := ih b (by simpa using hlen) (fun z hz => hba z (by simp [hz]))
        (fun z hz => hbb z (by simp [hz])) hrest
      rw [hxy, this]

/-! ## Lemmas: index lookup -/

theorem find?_eq_of_nodup {hashes : List (Nat × ImageHashes)}
    (hnd : (hashes.map Prod.fst).Nodup) {i : Nat} {H : ImageHashes}
    (h : (i, H) ∈ hashes) :
    hashes.find? (fun ih => ih.1 == i) = some (i, H) := by
  induction hashes with
  | nil => exact absurd h (List.not_mem_nil _)
  | cons ih0 rest ihr =>
    rcases List.mem_cons.mp h with heq | hmem
    · rw [← heq]
      simp [List.find?]
    · have hk : ih0.1 ≠ i := by
        intro hc
        rw [List.map_cons, List.nodup_cons] at hnd
        exact hnd.1 (by rw [hc]; exact List.mem_map.mpr ⟨(i, H), hmem, rfl⟩)
      have hpa : (ih0.1 == i) = false := by simpa using hk
      rw [List.find?_cons_of_neg _ (by simp [hpa])]
      exact ihr (by rw [List.map_cons, List.nodup_cons] at hnd; exact hnd.2) hmem

theorem phashOf_eq {hashes : List (Nat × ImageHashes)}
    (hnd : (hashes.map Prod.fst).Nodup) {i : Nat} {H : ImageHashes}
    (h : (i, H) ∈ hashes) : phashOf hashes i = H.perceptual_hash := by
  unfold phashOf
  rw [find?_eq_of_nodup hnd h]

/-! ## Lemmas: the visual phase, assembled -/

theorem mem_visualGroups {hashes : List (Nat × ImageHashes)} {T : Nat}
    {g : DuplicateGroup} :
    g ∈ visualGroups hashes T ↔
      ∃ r v, (r, v) ∈ visualClusters hashes T ∧ 1 < v.length ∧
        g = ⟨MatchKind.Visual
          ((mdLookup (visualFoldState hashes T).2 r).getD 0), v⟩ := by
  unfold visualGroups
  rw [List.mem_filterMap]
  constructor
  · rintro ⟨⟨r, v⟩, hmem, hf⟩
    by_cases hlen : 1 < v.length
    · rw [if_pos hlen] at hf
      injection hf with hf
      exact ⟨r, v, hmem, hlen, hf.symm⟩
    · rw [if_neg hlen] at hf
      exact absurd hf (by simp)
  · rintro ⟨r, v, hmem, hlen, hg⟩
    refine ⟨(r, v), hmem, ?_⟩
    rw [if_pos hlen, hg]

theorem mem_find_duplicates {hashes : List (Nat × ImageHashes)} {T : Nat}
    {g : DuplicateGroup} :
    g ∈ find_duplicates hashes T ↔
      g ∈ exactGroups hashes ∨ g ∈ visualGroups hashes T := by
  unfold find_duplicates
  exact List.mem_append

theorem clusterVals_eq (n : Nat) (pF : Nat → Nat) (pa : List (Nat × List Nat))
    (r : Nat) :
    groupVals ((List.range n).map (fun i => (rootN n pF i, idxAt pa i))) r =
      ((List.range n).filter (fun i => decide (rootN n pF i = r))).map
        (idxAt pa) := by
  unfold groupVals
  rw [List.filter_map, List.map_map]
  rfl

theorem one_lt_length_of_two_mem {l : List Nat} {a b : Nat} (ha : a ∈ l)
    (hb : b ∈ l) (hab : a ≠ b) : 1 < l.length := by
  match l with
  | [] => exact absurd ha (List.not_mem_nil _)
  | [x] =>
    rw [List.mem_singleton] at ha hb
    exact absurd (ha.trans hb.symm) hab
  | x :: y :: rest => simp

/-- Under distinct indices, an index determines its input entry. -/
theorem entry_unique {hashes : List (Nat × ImageHashes)}
    (hnd : (hashes.map Prod.fst).Nodup) {i : Nat} {H1 H2 : ImageHashes}
    (h1 : (i, H1) ∈ hashes) (h2 : (i, H2) ∈ hashes) : H1 = H2 := by
  have e1 := find?_eq_of_nodup hnd h1
  have e2 := find?_eq_of_nodup hnd h2
  rw [e1] at e2
  simp only [Option.some.injEq, Prod.mk.injEq] at e2
  exact e2.2

/-- The perceptual hash stored at a position of non_exact is the one
phashOf associates with the index stored there. -/
theorem phashAt_eq_phashOf {hashes : List (Nat × ImageHashes)}
    (hnd : (hashes.map Prod.fst).Nodup) {pos : Nat}
    (hpos : pos < (nonExact hashes).length) :
    phashAt (nonExact hashes) pos =
      phashOf hashes (idxAt (nonExact hashes) pos) := by
  have hmem := getD_mem (nonExact hashes) pos hpos
  have hentry : ((nonExact hashes).getD pos (0, [])).1 = idxAt (nonExact hashes) pos := rfl
  have hentry2 : ((nonExact hashes).getD pos (0, [])).2 = phashAt (nonExact hashes) pos := rfl
  rcases hgd : (nonExact hashes).getD pos (0, []) with ⟨x, ph⟩
  rw [hgd] at hmem hentry hentry2
  obtain ⟨H, hH, hph, _⟩ := mem_nonExact.mp hmem
  rw [← hentry, ← hentry2]
  simp only
  rw [phashOf_eq hnd hH, hph]

/-- Pairwise relations transfer through filterMap. -/
theorem pairwise_filterMap_of_pairwise {α β : Type} {R : α → α → Prop}
    {S : β → β → Prop} (f : α → Option β) :
    ∀ {l : List α}, List.Pairwise R l →
      (∀ a b, R a b → ∀ c d, f a = some c → f b = some d → S c d) →
      List.Pairwise S (l.filterMap f) := by
  intro l
  induction l with
  | nil =>
    intro _ _
    simp
  | cons a l ih =>
    intro hp hrel
    rw [List.pairwise_cons] at hp
    rcases hfa : f a with _ | c
    · rw [List.filterMap_cons_none hfa]
      exact ih hp.2 hrel
    · rw [List.filterMap_cons_some hfa]
      rw [List.pairwise_cons]
      constructor
      · intro d hd
        rw [List.mem_filterMap] at hd
        obtain ⟨b, hb, hfb⟩ := hd
        exact hrel a b (hp.1 b hb) c d hfa hfb
      · exact ih hp.2 hrel

/-! ## Claim C2: get_hashes freshness and well-formedness gate -/

/-- C2: Catalog::get_hashes returns Some exactly when a row for the path
exists, the file still exists on disk (with a post-epoch mtime), the
stored size and mtime match the disk values, both hash columns are
present and the content hash is 32 bytes; every mismatch, missing file,
missing column or malformed blob yields None. -/
theorem claim_C2_get_hashes_fresh (db : List (String × Row)) (fs : FsOracle)
    (path : String) (ch ph : List Nat) :
    get_hashes db fs path = some (ch, ph) ↔
      ∃ row disk_size disk_mtime,
        lookupRow db path = some row ∧
        file_size_and_mtime fs path = some (disk_size, disk_mtime) ∧
        row.file_size = toI64 disk_size ∧ row.mtime_ns = disk_mtime ∧
        row.content_hash = some ch ∧ ch.length = 32 ∧
        row.perceptual_hash = some ph := by
  unfold get_hashes
  rcases hfs : file_size_and_mtime fs path with _ | ⟨s, m⟩
  · simp only
    constructor
    · intro h
      exact absurd h (by simp)
    · rintro ⟨row, s', m', _, hfs', _⟩
      exact absurd hfs' (by simp)
  · simp only
    rcases hrow : lookupRow db path with _ | row
    · simp only
      constructor
      · intro h
        exact absurd h (by simp)
      · rintro ⟨row', s', m', hrow', _⟩
        exact absurd hrow' (by simp)
    · simp only
      by_cases hmis : row.file_size ≠ toI64 s ∨ row.mtime_ns ≠ m
      · rw [if_pos hmis]
        constructor
        · intro h
          exact absurd h (by simp)
        · rintro ⟨row', s', m', hrow', hfs', h1, h2, _⟩
          injection hrow' with hrow'
          simp only [Option.some.injEq, Prod.mk.injEq] at hfs'
          rcases hmis with hm | hm
          · exact (hm (by rw [hrow', h1, ← hfs'.1])).elim
          · exact (hm (by rw [hrow', h2, ← hfs'.2])).elim
      · rw [if_neg hmis]
        push_neg at hmis
        rcases hch : row.content_hash with _ | chv <;>
          rcases hph : row.perceptual_hash with _ | phv <;> simp only
        · constructor
          · intro h
            exact absurd h (by simp)
          · rintro ⟨row', s', m', hrow', _, _, _, hch', _⟩
            injection hrow' with hrow'
            rw [← hrow', hch] at hch'
            exact absurd hch' (by simp)
        · constructor
          · intro h
            exact absurd h (by simp)
          · rintro ⟨row', s', m', hrow', _, _, _, hch', _⟩
            injection hrow' with hrow'
            rw [← hrow', hch] at hch'
            exact absurd hch' (by simp)
        · constructor
          · intro h
            exact absurd h (by simp)
          · rintro ⟨row', s', m', hrow', _, _, _, _, _, hph'⟩
            injection hrow' with hrow'
            rw [← hrow', hph] at hph'
            exact absurd hph' (by simp)
        · by_cases hlen : chv.length ≠ 32
          · rw [if_pos hlen]
            constructor
            · intro h
              exact absurd h (by simp)
            · rintro ⟨row', s', m', hrow', _, _, _, hch', hlen', _⟩
              injection hrow' with hrow'
              rw [← hrow', hch] at hch'
              injection hch' with hch'
              rw [hch'] at hlen
              exact (hlen hlen').elim
          · rw [if_neg hlen]
            push_neg at hlen
            constructor
            · intro h
              injection h with h
              simp only [Prod.mk.injEq] at h
              refine ⟨row, s, m, rfl, rfl, hmis.1, hmis.2, ?_, ?_, ?_⟩
              · rw [hch, h.1]
              · rw [← h.1]
                exact hlen
              · rw [hph, h.2]
            · rintro ⟨row', s', m', hrow', hfs', _, _, hch', _, hph'⟩
              injection hrow' with hrow'
              rw [← hrow', hch] at hch'
              injection hch' with hch'
              rw [← hrow', hph] at hph'
              injection hph' with hph'
              rw [hch', hph']

/-- C2 witness: a fresh, well-formed record is returned. -/
theorem claim_C2_witness :
    get_hashes
      [("p", ⟨toI64 5, 7, none, none, none, none,
        some (List.replicate 32 0), some [1]⟩)]
      (fun s => if s = "p" then some (5, 7) else none) "p" =
      some (List.replicate 32 0, [1]) :=
  (claim_C2_get_hashes_fresh _ _ _ _ _).mpr
    ⟨⟨toI64 5, 7, none, none, none, none, some (List.replicate 32 0), some [1]⟩,
      5, 7, by decide, by decide, rfl, by decide, rfl, by decide, rfl⟩

/-! ## Claim C6: insert_hashes upsert semantics -/

theorem insert_hashes_lookup_some (path : String) (fsize : Nat) (mtime : Int)
    (ch ph : List Nat) :
    ∀ (db : List (String × Row)) (row : Row), lookupRow db path = some row →
      lookupRow (insert_hashes db path fsize mtime ch ph) path =
        some { row with
                file_size := toI64 fsize
                mtime_ns := mtime
                content_hash := some ch
                perceptual_hash := some ph } := by
  intro db
  induction db with
  | nil =>
    intro row h
    exact absurd h (by simp [lookupRow])
  | cons qr rest ih =>
    intro row h
    rcases qr with ⟨q, r⟩
    by_cases hq : q = path
    · simp only [lookupRow, hq, ite_true, Option.some.injEq] at h
      simp only [insert_hashes, hq, ite_true, lookupRow, Option.some.injEq]
      rw [h]
    · simp only [lookupRow, hq, ite_false] at h
      simp only [insert_hashes, hq, ite_false, lookupRow]
      exact ih row h

theorem insert_hashes_lookup_none (path : String) (fsize : Nat) (mtime : Int)
    (ch ph : List Nat) :
    ∀ (db : List (String × Row)), lookupRow db path = none →
      lookupRow (insert_hashes db path fsize mtime ch ph) path =
        some ⟨toI64 fsize, mtime, none, none, none, none, some ch, some ph⟩ := by
  intro db
  induction db with
  | nil =>
    intro _
    simp [insert_hashes, lookupRow]
  | cons qr rest ih =>
    intro h
    rcases qr with ⟨q, r⟩
    by_cases hq : q = path
    · simp [lookupRow, hq] at h
    · simp only [lookupRow, hq, ite_false] at h
      simp only [insert_hashes, hq, ite_false, lookupRow]
      exact ih h

theorem insert_hashes_lookup_other (path : String) (fsize : Nat) (mtime : Int)
    (ch ph : List Nat) :
    ∀ (db : List (String × Row)) (q : String), q ≠ path →
      lookupRow (insert_hashes db path fsize mtime ch ph) q =
        lookupRow db q := by
  intro db
  induction db with
  | nil =>
    intro q hq
    simp only [insert_hashes, lookupRow]
    rw [if_neg (fun h2 => hq h2.symm)]
  | cons qr rest ih =>
    intro q hq
    rcases qr with ⟨q0, r⟩
    by_cases hq0 : q0 = path
    · simp only [insert_hashes, hq0, ite_true, lookupRow]
      rw [if_neg (fun h2 => hq h2.symm), if_neg (fun h2 => hq h2.symm)]
    · simp only [insert_hashes, hq0, ite_false, lookupRow]
      by_cases hq0q : q0 = q
      · rw [if_pos hq0q, if_pos hq0q]
      · rw [if_neg hq0q, if_neg hq0q]
        exact ih q hq

/-- C6: Catalog::insert_hashes upserts on the path key with
last-write-wins, setting exactly file_size, mtime_ns, content_hash and
perceptual_hash; the width, height, date_taken and date_modified fields
already stored for that path are left unchanged (the record-update
conclusion fixes all other fields of the pre-existing row), a fresh row
leaves them NULL, and rows of other paths are untouched. -/
theorem claim_C6_insert_hashes_upsert (db : List (String × Row))
    (path : String) (fsize : Nat) (mtime : Int) (ch ph : List Nat) :
    (∀ row, lookupRow db path = some row →
      lookupRow (insert_hashes db path fsize mtime ch ph) path =
        some { row with
                file_size := toI64 fsize
                mtime_ns := mtime
                content_hash := some ch
                perceptual_hash := some ph }) ∧
    (lookupRow db path = none →
      lookupRow (insert_hashes db path fsize mtime ch ph) path =
        some ⟨toI64 fsize, mtime, none, none, none, none, some ch, some ph⟩) ∧
    (∀ q, q ≠ path →
      lookupRow (insert_hashes db path fsize mtime ch ph) q = lookupRow db q) :=
  ⟨fun row h => insert_hashes_lookup_some path fsize mtime ch ph db row h,
   fun h => insert_hashes_lookup_none path fsize mtime ch ph db h,
   fun q hq => insert_hashes_lookup_other path fsize mtime ch ph db q hq⟩

/-- C6 witness: overwriting the hash fields of a stored row keeps its
dimensions and dates. -/
theorem claim_C6_witness :
    lookupRow (insert_hashes
      [("p", ⟨1, 2, some 30, some 40, some "t", some "m", some [5], some [6]⟩)]
      "p" 9 8 [7] [4]) "p" =
      some ⟨toI64 9, 8, some 30, some 40, some "t", some "m",
        some [7], some [4]⟩ := by
  have := (claim_C6_insert_hashes_upsert
    [("p", ⟨1, 2, some 30, some 40, some "t", some "m", some [5], some [6]⟩)]
    "p" 9 8 [7] [4]).1
    ⟨1, 2, some 30, some 40, some "t", some "m", some [5], some [6]⟩ (by decide)
  simpa using this

/-! ## Claim C10: prune_missing deletes exactly the missing paths -/

theorem prune_missing_lookup (db : List (String × Row)) (fs : FsOracle)
    (q : String) :
    lookupRow (prune_missing db fs) q =
      if pathExists fs q then lookupRow db q else none := by
  induction db with
  | nil =>
    simp [prune_missing, lookupRow]
  | cons pr rest ih =>
    rcases pr with ⟨p0, r0⟩
    by_cases hp : pathExists fs p0
    · simp only [prune_missing, List.filter_cons] at ih ⊢
      rw [if_pos hp]
      by_cases hq : p0 = q
      · rw [← hq, if_pos hp]
        simp only [lookupRow, ite_true]
      · simp only [lookupRow, hq, ite_false]
        rw [ih]
    · simp only [prune_missing, List.filter_cons] at ih ⊢
      rw [if_neg (by simpa using hp)]
      rw [ih]
      by_cases hq : p0 = q
      · rw [← hq, if_neg hp, if_neg hp]
      · by_cases hqe : pathExists fs q
        · rw [if_pos hqe, if_pos hqe]
          simp [lookupRow, hq]
        · rw [if_neg hqe, if_neg hqe]

/-- C10: prune_missing keeps exactly the rows whose path still exists on
disk (row-level and lookup-level characterizations), and on a cache of 5
records of which 2 paths are gone from disk exactly 3 records remain. -/
theorem claim_C10_prune_missing (db : List (String × Row)) (fs : FsOracle) :
    (∀ e, e ∈ prune_missing db fs ↔ e ∈ db ∧ pathExists fs e.1 = true) ∧
    (∀ q, lookupRow (prune_missing db fs) q =
      if pathExists fs q then lookupRow db q else none) ∧
    (prune_missing
        [("a", ⟨0, 0, none, none, none, none, none, none⟩),
         ("b", ⟨0, 0, none, none, none, none, none, none⟩),
         ("c", ⟨0, 0, none, none, none, none, none, none⟩),
         ("d", ⟨0, 0, none, none, none, none, none, none⟩),
         ("e", ⟨0, 0, none, none, none, none, none, none⟩)]
        (fun s => if s = "a" ∨ s = "b" ∨ s = "c" then some (1, 0) else none)
      ).length = 3 := by
  refine ⟨?_, fun q => prune_missing_lookup db fs q, by decide⟩
  intro e
  unfold prune_missing
  rw [List.mem_filter]

/-! ## Claim C5: the thumbnail pipeline falls back to a placeholder -/

/-- C5: generate_thumbnail is a total function (it always returns a pixel
buffer with dimensions), and when every tier fails — no cache hit in
either format, the embedded preview cannot be decoded, scaled decode
fails, full decode fails — it returns the solid placeholder bitmap whose
width and height both equal the requested size. -/
theorem claim_C5_placeholder (env : ThumbEnv) (max_size : Nat)
    (hq : ∀ s, env.read_cache_qoi s = none)
    (hl : ∀ s, env.read_cache_legacy s = none)
    (hm : ∀ dbytes, env.load_from_memory dbytes = none)
    (hs : env.decode_jpeg_scaled max_size = none)
    (ho : env.image_open = none) :
    generate_thumbnail env max_size =
      (List.replicate (max_size * max_size * 4) 60, max_size, max_size) := by
  have huncached : generate_thumbnail_uncached env max_size =
      (List.replicate (max_size * max_size * 4) 60, max_size, max_size) := by
    unfold generate_thumbnail_uncached
    rcases hexif : env.read_exif_info.2 with _ | data <;>
      simp only [hm, hs, ho]
    · rfl
    · rcases hjh : env.jpeg_header_dims data with _ | ⟨w, h⟩ <;> simp only
      · rfl
      · split_ifs <;> rfl
  unfold generate_thumbnail
  rcases env.cache_key with _ | key
  · exact huncached
  · simp only [hq, hl]
    exact huncached

/-- C5 witness: a concrete all-tiers-fail environment yields the 2 by 2
placeholder. -/
theorem claim_C5_witness :
    generate_thumbnail
      ⟨(1, none), fun _ => none, fun _ => none, fun i _ _ => i,
        id, id, id, id, id, fun _ => none, none, none,
        fun _ => none, fun _ => none⟩ 2 =
      (List.replicate 16 60, 2, 2) := by
  have := claim_C5_placeholder
    ⟨(1, none), fun _ => none, fun _ => none, fun i _ _ => i,
      id, id, id, id, id, fun _ => none, none, none,
      fun _ => none, fun _ => none⟩ 2
    (fun _ => rfl) (fun _ => rfl) (fun _ => rfl) rfl rfl
  simpa using this

/-! ## Claim C1: byte-identical files share a content hash and an Exact group -/

/-- C1: compute_hashes digests the raw file bytes, so two files with
byte-identical content receive equal content hashes (for any digest and
decoder oracles), and when both fingerprints are passed to
find_duplicates under any threshold, their indices land together in a
single Exact group. -/
theorem claim_C1_exact_group (sha256 : List Nat → List Nat)
    (load_from_memory : List Nat → Option Img) (hash_image : Img → List Nat)
    (bytesA bytesB : List Nat) (hA hB : ImageHashes) (i j : Nat)
    (hashes : List (Nat × ImageHashes)) (T : Nat)
    (hbytes : bytesA = bytesB)
    (hcA : compute_hashes sha256 load_from_memory hash_image (some bytesA) =
      some hA)
    (hcB : compute_hashes sha256 load_from_memory hash_image (some bytesB) =
      some hB)
    (hiMem : (i, hA) ∈ hashes) (hjMem : (j, hB) ∈ hashes) (hij : i ≠ j) :
    hA.content_hash = hB.content_hash ∧
      ∃ g, g ∈ find_duplicates hashes T ∧ g.match_kind = MatchKind.Exact ∧
        i ∈ g.indices ∧ j ∈ g.indices := by
  have hcontent : ∀ (bytes : List Nat) (H : ImageHashes),
      compute_hashes sha256 load_from_memory hash_image (some bytes) = some H →
      H.content_hash = sha256 bytes := by
    intro bytes H h
    have h' : (match load_from_memory bytes with
        | none => (none : Option ImageHashes)
        | some img => some ⟨sha256 bytes, hash_image img⟩) = some H := h
    rcases hl : load_from_memory bytes with _ | img
    · rw [hl] at h'
      exact absurd h' (by simp)
    · rw [hl] at h'
      simp only [Option.some.injEq] at h'
      rw [← h']
  have hAc := hcontent bytesA hA hcA
  have hBc := hcontent bytesB hB hcB
  have heq : hA.content_hash = hB.content_hash := by rw [hAc, hBc, hbytes]
  refine ⟨heq, ?_⟩
  have hiv : i ∈ groupVals
      (hashes.map (fun ih => (ih.2.content_hash, ih.1))) hA.content_hash :=
    mem_groupVals.mpr (List.mem_map.mpr ⟨(i, hA), hiMem, rfl⟩)
  have hjv : j ∈ groupVals
      (hashes.map (fun ih => (ih.2.content_hash, ih.1))) hA.content_hash := by
    refine mem_groupVals.mpr (List.mem_map.mpr ⟨(j, hB), hjMem, ?_⟩)
    show (hB.content_hash, j) = (hA.content_hash, j)
    rw [heq]
  have hlen := one_lt_length_of_two_mem hiv hjv hij
  have hmemSha : (hA.content_hash,
      groupVals (hashes.map (fun ih => (ih.2.content_hash, ih.1)))
        hA.content_hash) ∈ shaGroups hashes := by
    unfold shaGroups
    exact mem_groupPairs.mpr ⟨rfl, List.ne_nil_of_mem hiv⟩
  have hgmem : (⟨MatchKind.Exact,
      groupVals (hashes.map (fun ih => (ih.2.content_hash, ih.1)))
        hA.content_hash⟩ : DuplicateGroup) ∈ exactGroups hashes :=
    mem_exactGroups.mpr ⟨hA.content_hash, _, hmemSha, hlen, rfl⟩
  exact ⟨_, mem_find_duplicates.mpr (Or.inl hgmem), rfl, hiv, hjv⟩

/-- C1 witness: two byte-identical one-byte files, any oracles. -/
theorem claim_C1_witness :
    (⟨[9], [0]⟩ : ImageHashes).content_hash =
      (⟨[9], [0]⟩ : ImageHashes).content_hash ∧
      ∃ g, g ∈ find_duplicates [(0, ⟨[9], [0]⟩), (1, ⟨[9], [0]⟩)] 0 ∧
        g.match_kind = MatchKind.Exact ∧ 0 ∈ g.indices ∧ 1 ∈ g.indices :=
  claim_C1_exact_group (fun b => b) (fun _ => some ⟨1, 1, []⟩) (fun _ => [0])
    [9] [9] ⟨[9], [0]⟩ ⟨[9], [0]⟩ 0 1
    [(0, ⟨[9], [0]⟩), (1, ⟨[9], [0]⟩)] 0 rfl rfl rfl
    (by simp) (by simp) (by decide)

/-! ## Claim C7: tracked minimum under merges, and group annotation -/

/-- C7: whenever a matching pair with distance d merges two distinct
clusters, the merged cluster's tracked minimum becomes the least of the
two clusters' previous trackers (u32::MAX standing for an absent
tracker) and d, and the cluster roots at the root of the first endpoint;
moreover every emitted Visual group is annotated with the tracked
minimum looked up at its cluster root (0 when no tracker exists). -/
theorem claim_C7_tracked_minimum :
    (∀ (n : Nat) (p : Nat → Nat) (md : List (Nat × Nat)) (i j d : Nat),
      UFInv n p → i < n → j < n → rootN n p i ≠ rootN n p j →
      mdLookup (processEdge n (p, md) (i, j, d)).2 (rootN n p i) =
        some (min (min d ((mdLookup md (rootN n p i)).getD UMAX))
          ((mdLookup md (rootN n p j)).getD UMAX)) ∧
      (∀ y, y < n → rootN n (processEdge n (p, md) (i, j, d)).1 y =
        if rootN n p y = rootN n p j then rootN n p i else rootN n p y)) ∧
    (∀ (hashes : List (Nat × ImageHashes)) (T : Nat) (g : DuplicateGroup),
      g ∈ visualGroups hashes T →
      ∃ r v, (r, v) ∈ visualClusters hashes T ∧ g.indices = v ∧
        g.match_kind = MatchKind.Visual
          ((mdLookup (visualFoldState hashes T).2 r).getD 0)) := by
  constructor
  · intro n p md i j d hinv hi hj _
    obtain ⟨hmd, _, hroot⟩ := processEdge_spec n p md i j d hinv hi hj
    constructor
    · rw [hmd, mdLookup_insert_self]
    · exact hroot
  · intro hashes T g hg
    obtain ⟨r, v, hcl, hlen, hgeq⟩ := mem_visualGroups.mp hg
    exact ⟨r, v, hcl, by rw [hgeq], by rw [hgeq]⟩

/-- C7 witness: merging two singleton clusters with an edge of distance 5
tracks the minimum 5 at the merged root. -/
theorem claim_C7_witness :
    mdLookup (processEdge 2 (fun x => x, []) (0, 1, 5)).2
        (rootN 2 (fun x => x) 0) =
      some (min (min 5 ((mdLookup [] (rootN 2 (fun x => x) 0)).getD UMAX))
        ((mdLookup [] (rootN 2 (fun x => x) 1)).getD UMAX)) :=
  (claim_C7_tracked_minimum.1 2 (fun x => x) [] 0 1 5 (UFInv_id 2)
    (by decide) (by decide) (by decide)).1

/-! ## Claim C4: two fingerprints at the threshold boundary -/

theorem matchingPairs_two (pa0 pa1 : Nat × List Nat) (T : Nat) :
    matchingPairs [pa0, pa1] T =
      if hamming_distance pa0.2 pa1.2 ≤ T
      then [(0, 1, hamming_distance pa0.2 pa1.2)] else [] := by
  unfold matchingPairs
  have hlen : ([pa0, pa1] : List (Nat × List Nat)).length = 2 := rfl
  rw [hlen]
  have hr2 : List.range 2 = [0, 1] := by decide
  rw [hr2]
  have h0 : phashAt [pa0, pa1] 0 = pa0.2 := rfl
  have h1 : phashAt [pa0, pa1] 1 = pa1.2 := rfl
  simp only [List.flatMap_cons, List.flatMap_nil, h0, h1]
  have hrange1 : List.range' 1 1 = [1] := by decide
  have hrange2 : List.range' 2 0 = [] := by decide
  rw [show (2 : Nat) - (0 + 1) = 1 by decide, show (2 : Nat) - (1 + 1) = 0 by decide,
    hrange1, hrange2]
  simp only [List.filterMap_cons, List.filterMap_nil]
  by_cases hle : hamming_distance pa0.2 pa1.2 ≤ T
  · rw [if_pos hle]
    simp only [h0, h1]
    rw [if_pos hle]
    rfl
  · rw [if_neg hle]
    simp only [h0, h1]
    rw [if_neg hle]
    rfl

/-- C4: on an input of exactly two fingerprints with distinct content
hashes, a perceptual Hamming distance of exactly T puts both indices in
one Visual group (annotated T), while a distance of T + 1 produces no
group at all. The bound T ≤ u32::MAX reflects the u32 threshold type. -/
theorem claim_C4_threshold_boundary (i j : Nat) (ha hb : ImageHashes)
    (T : Nat) (hc : ha.content_hash ≠ hb.content_hash) (hT : T ≤ UMAX) :
    (hamming_distance ha.perceptual_hash hb.perceptual_hash = T →
      find_duplicates [(i, ha), (j, hb)] T =
        [⟨MatchKind.Visual T, [i, j]⟩]) ∧
    (hamming_distance ha.perceptual_hash hb.perceptual_hash = T + 1 →
      find_duplicates [(i, ha), (j, hb)] T = []) := by
  have hsg : shaGroups [(i, ha), (j, hb)] =
      [(ha.content_hash, [i]), (hb.content_hash, [j])] := by
    simp [shaGroups, groupPairs, addToGroup, hc]
  have heg : exactGroups [(i, ha), (j, hb)] = [] := by
    simp [exactGroups, hsg]
  have hem : exactMatched [(i, ha), (j, hb)] = [] := by
    simp [exactMatched, hsg]
  have hne : nonExact [(i, ha), (j, hb)] =
      [(i, ha.perceptual_hash), (j, hb.perceptual_hash)] := by
    simp [nonExact, hem]
  constructor
  · intro hdist
    have hmp : matchingPairs (nonExact [(i, ha), (j, hb)]) T = [(0, 1, T)] := by
      rw [hne, matchingPairs_two]
      simp only [hdist]
      rw [if_pos (Nat.le_refl T)]
    have hvfs : visualFoldState [(i, ha), (j, hb)] T =
        processEdge 2 ((fun x => x), []) (0, 1, T) := by
      unfold visualFoldState
      rw [hmp, hne]
      rfl
    obtain ⟨hmd, hinv', hroots'⟩ :=
      processEdge_spec 2 (fun x => x) [] 0 1 T (UFInv_id 2)
        (by decide) (by decide)
    have hr00 : rootN 2 (fun x => x) 0 = 0 := rootN_id 2 0
    have hr11 : rootN 2 (fun x => x) 1 = 1 := rootN_id 2 1
    have hmdF : (visualFoldState [(i, ha), (j, hb)] T).2 = [(0, T)] := by
      rw [hvfs, hmd, hr00, hr11]
      have hlk : ∀ k : Nat, mdLookup [] k = none := fun _ => rfl
      rw [hlk 0, hlk 1]
      simp only [Option.getD_none]
      rw [Nat.min_eq_left hT, Nat.min_eq_left hT]
      rfl
    have hpe0 : rootN 2 (processEdge 2 ((fun x => x), []) (0, 1, T)).1 0 = 0 := by
      rw [hroots' 0 (by decide), hr00, hr11]
      rw [if_neg (by decide)]
    have hpe1 : rootN 2 (processEdge 2 ((fun x => x), []) (0, 1, T)).1 1 = 0 := by
      rw [hroots' 1 (by decide), hr00, hr11]
      rw [if_pos rfl]
    have hcl : visualClusters [(i, ha), (j, hb)] T = [(0, [i, j])] := by
      unfold visualClusters
      rw [hne, hvfs]
      have h2 : ([(i, ha.perceptual_hash), (j, hb.perceptual_hash)] :
          List (Nat × List Nat)).length = 2 := rfl
      rw [h2]
      rw [collectClusters_eq hinv']
      have hr2 : List.range 2 = [0, 1] := by decide
      rw [hr2]
      simp only [List.map_cons, List.map_nil, hpe0, hpe1]
      have hi0 : idxAt [(i, ha.perceptual_hash), (j, hb.perceptual_hash)] 0 = i := rfl
      have hi1 : idxAt [(i, ha.perceptual_hash), (j, hb.perceptual_hash)] 1 = j := rfl
      rw [hi0, hi1]
      simp [groupPairs, addToGroup]
    have hvg : visualGroups [(i, ha), (j, hb)] T =
        [⟨MatchKind.Visual T, [i, j]⟩] := by
      unfold visualGroups
      rw [hcl, hmdF]
      simp [mdLookup]
    unfold find_duplicates
    rw [heg, hvg]
    rfl
  · intro hdist
    have hmp : matchingPairs (nonExact [(i, ha), (j, hb)]) T = [] := by
      rw [hne, matchingPairs_two]
      simp only [hdist]
      rw [if_neg (by omega)]
    have hvfs : visualFoldState [(i, ha), (j, hb)] T = ((fun x => x), []) := by
      unfold visualFoldState
      rw [hmp]
      rfl
    have hcl : visualClusters [(i, ha), (j, hb)] T = [(0, [i]), (1, [j])] := by
      unfold visualClusters
      rw [hne, hvfs]
      have h2 : ([(i, ha.perceptual_hash), (j, hb.perceptual_hash)] :
          List (Nat × List Nat)).length = 2 := rfl
      rw [h2]
      rw [collectClusters_eq (UFInv_id 2)]
      have hr2 : List.range 2 = [0, 1] := by decide
      rw [hr2]
      simp only [List.map_cons, List.map_nil, rootN_id]
      have hi0 : idxAt [(i, ha.perceptual_hash), (j, hb.perceptual_hash)] 0 = i := rfl
      have hi1 : idxAt [(i, ha.perceptual_hash), (j, hb.perceptual_hash)] 1 = j := rfl
      rw [hi0, hi1]
      simp [groupPairs, addToGroup]
    have hvg : visualGroups [(i, ha), (j, hb)] T = [] := by
      unfold visualGroups
      rw [hcl]
      simp
    unfold find_duplicates
    rw [heg, hvg]
    rfl

/-- C4 witness: distance 2 equals the threshold 2, so the pair clusters;
the same theorem at threshold 1 gives the distance-2 non-grouping. -/
theorem claim_C4_witness :
    find_duplicates [(0, ⟨[0], [0]⟩), (1, ⟨[1], [3]⟩)] 2 =
      [⟨MatchKind.Visual 2, [0, 1]⟩] :=
  (claim_C4_threshold_boundary 0 1 ⟨[0], [0]⟩ ⟨[1], [3]⟩ 2
    (by decide) (by decide)).1 (by decide)

/-! ## The visual clusters, unconditionally well-formed -/

theorem pF_UFInv (hashes : List (Nat × ImageHashes)) (T : Nat) :
    UFInv (nonExact hashes).length (visualFoldState hashes T).1 := by
  have hb : ∀ e ∈ matchingPairs (nonExact hashes) T,
      e.1 < (nonExact hashes).length ∧ e.2.1 < (nonExact hashes).length ∧
        (fun _ : Nat => (0 : Nat)) e.1 = (fun _ : Nat => (0 : Nat)) e.2.1 := by
    rintro ⟨a, b, d⟩ he
    obtain ⟨h1, h2, _, _⟩ := mem_matchingPairs.mp he
    exact ⟨lt_trans h1 h2, h2, rfl⟩
  exact (fold_respects (fun _ => (0 : Nat)) (matchingPairs (nonExact hashes) T)
    (fun x => x) [] (UFInv_id _) hb (fun _ _ _ _ _ => rfl)).1

theorem visualClusters_groupPairs (hashes : List (Nat × ImageHashes)) (T : Nat) :
    visualClusters hashes T =
      groupPairs ((List.range (nonExact hashes).length).map
        (fun pos => (rootN (nonExact hashes).length
          (visualFoldState hashes T).1 pos, idxAt (nonExact hashes) pos))) :=
  collectClusters_eq (pF_UFInv hashes T)

theorem mem_cluster_iff {hashes : List (Nat × ImageHashes)} {T r : Nat}
    {v : List Nat} (hcl : (r, v) ∈ visualClusters hashes T) (x : Nat) :
    x ∈ v ↔ ∃ pos, pos < (nonExact hashes).length ∧
      rootN (nonExact hashes).length (visualFoldState hashes T).1 pos = r ∧
      idxAt (nonExact hashes) pos = x := by
  rw [visualClusters_groupPairs] at hcl
  obtain ⟨hv, _⟩ := mem_groupPairs.mp hcl
  rw [hv, clusterVals_eq, List.mem_map]
  constructor
  · rintro ⟨pos, hmem, hidx⟩
    rw [List.mem_filter] at hmem
    exact ⟨pos, List.mem_range.mp hmem.1, of_decide_eq_true hmem.2, hidx⟩
  · rintro ⟨pos, h1, h2, h3⟩
    exact ⟨pos, List.mem_filter.mpr ⟨List.mem_range.mpr h1, decide_eq_true h2⟩, h3⟩

theorem cluster_nodup {hashes : List (Nat × ImageHashes)} {T r : Nat}
    {v : List Nat} (hnd : (hashes.map Prod.fst).Nodup)
    (hcl : (r, v) ∈ visualClusters hashes T) : v.Nodup := by
  rw [visualClusters_groupPairs] at hcl
  obtain ⟨hv, _⟩ := mem_groupPairs.mp hcl
  rw [hv, clusterVals_eq]
  apply List.Nodup.map_on
  · intro x hx y hy hxy
    rw [List.mem_filter] at hx hy
    have hxn := List.mem_range.mp hx.1
    have hyn := List.mem_range.mp hy.1
    by_contra hne
    exact idxAt_ne_of_nodup (nonExact_fst_nodup hnd) hxn hyn hne hxy
  · exact (List.nodup_range _).filter _

theorem idxAt_not_matched {hashes : List (Nat × ImageHashes)} {pos : Nat}
    (hpos : pos < (nonExact hashes).length) :
    idxAt (nonExact hashes) pos ∉ exactMatched hashes := by
  have hmem := getD_mem (nonExact hashes) pos hpos
  have hidx : idxAt (nonExact hashes) pos =
      ((nonExact hashes).getD pos (0, [])).1 := rfl
  rcases hgd : (nonExact hashes).getD pos (0, []) with ⟨x, ph⟩
  rw [hgd] at hmem
  obtain ⟨H, _, _, hni⟩ := mem_nonExact.mp hmem
  rw [hidx, hgd]
  exact hni

/-! ## Claim C3: output groups under distinct indices, and a violation
with repeated indices -/

/-- C3 (amended): when the input indices are pairwise distinct, the
groups returned by find_duplicates are pairwise disjoint in membership
and no group repeats an index, so every index appears in at most one
group (and at most once); in particular an index in any Exact group
never appears in a Visual group. -/
theorem claim_C3_amended_disjoint (hashes : List (Nat × ImageHashes)) (T : Nat)
    (hnd : (hashes.map Prod.fst).Nodup) :
    List.Pairwise (fun g1 g2 : DuplicateGroup =>
        ∀ x, x ∈ g1.indices → x ∉ g2.indices)
      (find_duplicates hashes T) ∧
    ∀ g ∈ find_duplicates hashes T, g.indices.Nodup := by
  have hmapped : ∀ (k : List Nat) (x : Nat),
      (k, x) ∈ hashes.map (fun ih => (ih.2.content_hash, ih.1)) →
      ∃ H, (x, H) ∈ hashes ∧ H.content_hash = k := by
    intro k x hmem
    rw [List.mem_map] at hmem
    obtain ⟨⟨x', H⟩, hm, heq⟩ := hmem
    simp only [Prod.mk.injEq] at heq
    rw [← heq.2]
    exact ⟨H, hm, heq.1⟩
  have hsha_disj : List.Pairwise
      (fun kv1 kv2 : List Nat × List Nat => ∀ x, x ∈ kv1.2 → x ∉ kv2.2)
      (shaGroups hashes) := by
    have hkeys := groupPairs_keys_nodup
      (hashes.map (fun ih => (ih.2.content_hash, ih.1)))
    rw [List.Nodup, List.pairwise_map] at hkeys
    refine List.Pairwise.imp_of_mem ?_ hkeys
    rintro ⟨k1, v1⟩ ⟨k2, v2⟩ h1 h2 hne x hx1 hx2
    obtain ⟨hv1, _⟩ := mem_groupPairs.mp h1
    obtain ⟨hv2, _⟩ := mem_groupPairs.mp h2
    rw [hv1] at hx1
    rw [hv2] at hx2
    obtain ⟨H1, hm1, hc1⟩ := hmapped k1 x (mem_groupVals.mp hx1)
    obtain ⟨H2, hm2, hc2⟩ := hmapped k2 x (mem_groupVals.mp hx2)
    apply hne
    rw [← hc1, ← hc2, entry_unique hnd hm1 hm2]
  have hexact_pair : List.Pairwise (fun g1 g2 : DuplicateGroup =>
      ∀ x, x ∈ g1.indices → x ∉ g2.indices) (exactGroups hashes) := by
    unfold exactGroups
    refine pairwise_filterMap_of_pairwise _ hsha_disj ?_
    rintro ⟨k1, v1⟩ ⟨k2, v2⟩ hrel c d hc hd
    by_cases hl1 : 1 < v1.length
    · by_cases hl2 : 1 < v2.length
      · rw [if_pos hl1] at hc
        rw [if_pos hl2] at hd
        injection hc with hc
        injection hd with hd
        rw [← hc, ← hd]
        exact hrel
      · rw [if_neg hl2] at hd
        exact absurd hd (by simp)
    · rw [if_neg hl1] at hc
      exact absurd hc (by simp)
  have hclkeys : List.Pairwise
      (fun rv1 rv2 : Nat × List Nat => rv1.1 ≠ rv2.1)
      (visualClusters hashes T) := by
    rw [visualClusters_groupPairs]
    have hkeys := groupPairs_keys_nodup ((List.range (nonExact hashes).length).map
      (fun pos => (rootN (nonExact hashes).length
        (visualFoldState hashes T).1 pos, idxAt (nonExact hashes) pos)))
    rw [List.Nodup, List.pairwise_map] at hkeys
    exact hkeys
  have hcl_disj : List.Pairwise
      (fun rv1 rv2 : Nat × List Nat => ∀ x, x ∈ rv1.2 → x ∉ rv2.2)
      (visualClusters hashes T) := by
    refine List.Pairwise.imp_of_mem ?_ hclkeys
    rintro ⟨r1, v1⟩ ⟨r2, v2⟩ h1 h2 hne x hx1 hx2
    obtain ⟨p1, hp1n, hp1r, hp1x⟩ := (mem_cluster_iff h1 x).mp hx1
    obtain ⟨p2, hp2n, hp2r, hp2x⟩ := (mem_cluster_iff h2 x).mp hx2
    have hpne : p1 ≠ p2 := by
      intro hc
      apply hne
      rw [← hp1r, ← hp2r, hc]
    exact idxAt_ne_of_nodup (nonExact_fst_nodup hnd) hp1n hp2n hpne
      (by rw [hp1x, hp2x])
  have hvisual_pair : List.Pairwise (fun g1 g2 : DuplicateGroup =>
      ∀ x, x ∈ g1.indices → x ∉ g2.indices) (visualGroups hashes T) := by
    unfold visualGroups
    refine pairwise_filterMap_of_pairwise _ hcl_disj ?_
    rintro ⟨r1, v1⟩ ⟨r2, v2⟩ hrel c d hc hd
    by_cases hl1 : 1 < v1.length
    · by_cases hl2 : 1 < v2.length
      · rw [if_pos hl1] at hc
        rw [if_pos hl2] at hd
        injection hc with hc
        injection hd with hd
        rw [← hc, ← hd]
        exact hrel
      · rw [if_neg hl2] at hd
        exact absurd hd (by simp)
    · rw [if_neg hl1] at hc
      exact absurd hc (by simp)
  have hcross : ∀ g1 ∈ exactGroups hashes, ∀ g2 ∈ visualGroups hashes T,
      ∀ x, x ∈ g1.indices → x ∉ g2.indices := by
    intro g1 hg1 g2 hg2 x hx1 hx2
    obtain ⟨k, v, hsha, hlen, hgeq⟩ := mem_exactGroups.mp hg1
    have hmatched : x ∈ exactMatched hashes := by
      refine mem_exactMatched.mpr ⟨(k, v), hsha, hlen, ?_⟩
      rw [hgeq] at hx1
      exact hx1
    obtain ⟨r, v2, hcl, _, hg2eq⟩ := mem_visualGroups.mp hg2
    rw [hg2eq] at hx2
    obtain ⟨pos, hposn, _, hposx⟩ := (mem_cluster_iff hcl x).mp hx2
    apply idxAt_not_matched hposn
    rw [hposx]
    exact hmatched
  constructor
  · unfold find_duplicates
    rw [List.pairwise_append]
    exact ⟨hexact_pair, hvisual_pair, fun g1 h1 g2 h2 => hcross g1 h1 g2 h2⟩
  · intro g hg
    rcases mem_find_duplicates.mp hg with hg | hg
    · obtain ⟨k, v, hsha, _, hgeq⟩ := mem_exactGroups.mp hg
      obtain ⟨hv, _⟩ := mem_groupPairs.mp hsha
      rw [hgeq]
      show v.Nodup
      rw [hv, shaGroups_vals]
      exact ((List.filter_sublist _).map Prod.fst).nodup hnd
    · obtain ⟨r, v, hcl, _, hgeq⟩ := mem_visualGroups.mp hg
      rw [hgeq]
      exact cluster_nodup hnd hcl

/-- C3 witness: two distinct-index entries produce disjoint output. -/
theorem claim_C3_witness :
    List.Pairwise (fun g1 g2 : DuplicateGroup =>
        ∀ x, x ∈ g1.indices → x ∉ g2.indices)
      (find_duplicates [(0, ⟨[2], [0]⟩), (1, ⟨[2], [0]⟩)] 0) ∧
    ∀ g ∈ find_duplicates [(0, ⟨[2], [0]⟩), (1, ⟨[2], [0]⟩)] 0,
      g.indices.Nodup :=
  claim_C3_amended_disjoint [(0, ⟨[2], [0]⟩), (1, ⟨[2], [0]⟩)] 0 (by decide)

/-- C3 counterexample: with a repeated index carrying two different
content hashes, find_duplicates emits two Exact groups that share
indices, refuting the claim for arbitrary input sequences. -/
theorem claim_C3_counterexample :
    ¬ List.Pairwise (fun g1 g2 : DuplicateGroup =>
        ∀ x, x ∈ g1.indices → x ∉ g2.indices)
      (find_duplicates
        [(0, ⟨[0], []⟩), (0, ⟨[1], []⟩), (1, ⟨[0], []⟩), (1, ⟨[1], []⟩)] 0) := by
  intro h
  have heval : find_duplicates
      [(0, ⟨[0], []⟩), (0, ⟨[1], []⟩), (1, ⟨[0], []⟩), (1, ⟨[1], []⟩)] 0 =
      [⟨MatchKind.Exact, [0, 1]⟩, ⟨MatchKind.Exact, [0, 1]⟩] := by decide
  rw [heval] at h
  obtain ⟨h1, _⟩ := List.pairwise_cons.mp h
  exact h1 ⟨MatchKind.Exact, [0, 1]⟩ (by simp) 0 (by simp) (by simp)

/-! ## Claim C8: the Visual annotation is the exact minimum pairwise
distance -/

/-- C8: under pairwise-distinct indices (and the u32 threshold range),
the distance annotated on every Visual group is attained by a pair of
distinct members and bounds the hamming distance of every pair of
distinct members — it is the exact minimum over all member pairs — and
it comes from an existing tracker entry, so the fallback value 0 for a
missing tracker is never used for a group of two or more members. -/
theorem claim_C8_annotated_min (hashes : List (Nat × ImageHashes)) (T : Nat)
    (hnd : (hashes.map Prod.fst).Nodup) (hT : T ≤ UMAX) :
    ∀ g ∈ find_duplicates hashes T, ∀ dv, g.match_kind = MatchKind.Visual dv →
      (∃ a b, a ∈ g.indices ∧ b ∈ g.indices ∧ a ≠ b ∧
        dv = hamming_distance (phashOf hashes a) (phashOf hashes b)) ∧
      (∀ a b, a ∈ g.indices → b ∈ g.indices → a ≠ b →
        dv ≤ hamming_distance (phashOf hashes a) (phashOf hashes b)) ∧
      (∃ r val, (r, g.indices) ∈ visualClusters hashes T ∧
        mdLookup (visualFoldState hashes T).2 r = some val ∧ dv = val) := by
  intro g hg dv hkind
  rcases mem_find_duplicates.mp hg with hge | hgv
  · obtain ⟨k, v, _, _, hgeq⟩ := mem_exactGroups.mp hge
    rw [hgeq] at hkind
    exact absurd hkind (by simp)
  obtain ⟨r, v, hcl, hlen, hgeq⟩ := mem_visualGroups.mp hgv
  have hVF := VF_final hashes T hT
  have hgind : g.indices = v := by rw [hgeq]
  have hgdv : dv = (mdLookup (visualFoldState hashes T).2 r).getD 0 := by
    rw [hgeq] at hkind
    injection hkind with hkind
    exact hkind.symm
  -- two distinct positions of the cluster
  have hclv := hcl
  rw [visualClusters_groupPairs] at hclv
  obtain ⟨hveq, _⟩ := mem_groupPairs.mp hclv
  rw [clusterVals_eq] at hveq
  have hPlen : 1 < ((List.range (nonExact hashes).length).filter
      (fun pos => decide (rootN (nonExact hashes).length
        (visualFoldState hashes T).1 pos = r))).length := by
    rw [hveq, List.length_map] at hlen
    exact hlen
  obtain ⟨p1, p2, hp1P, hp2P, hp12⟩ :=
    two_mem_of_one_lt_length ((List.nodup_range _).filter _) hPlen
  rw [List.mem_filter] at hp1P hp2P
  have hp1n := List.mem_range.mp hp1P.1
  have hp2n := List.mem_range.mp hp2P.1
  have hp1r := of_decide_eq_true hp1P.2
  have hp2r := of_decide_eq_true hp2P.2
  have hroot : isRootP (visualFoldState hashes T).1 r := by
    have := rootN_isRoot (pF_UFInv hashes T) hp1n
    rw [hp1r] at this
    exact this
  obtain ⟨dd0, hce0⟩ := hVF.nontriv p1 p2 hp1n hp2n
    (by rw [hp1r, hp2r]) hp12
  rw [hp1r] at hce0
  rcases hmd : mdLookup (visualFoldState hashes T).2 r with _ | val
  · exact absurd hce0 (hVF.mdNone r hroot hmd dd0)
  obtain ⟨hattained, hbound⟩ := hVF.mdSome r val hroot hmd
  have hdv : dv = val := by
    rw [hgdv, hmd]
    rfl
  obtain ⟨ia, ja, hedge, hroot_ia⟩ := hattained
  obtain ⟨hiaja, hja_n, hval, hvalT⟩ := mem_matchingPairs.mp hedge
  have hia_n : ia < (nonExact hashes).length := lt_trans hiaja hja_n
  have hroot_ja : rootN (nonExact hashes).length
      (visualFoldState hashes T).1 ja = r := by
    have := hVF.ends ia ja val hedge
    rw [← this]
    exact hroot_ia
  refine ⟨?_, ?_, r, val, by rw [hgind]; exact hcl, hmd, hdv⟩
  · -- attained by the pair stored at the attaining edge
    refine ⟨idxAt (nonExact hashes) ia, idxAt (nonExact hashes) ja, ?_, ?_, ?_, ?_⟩
    · rw [hgind]
      exact (mem_cluster_iff hcl _).mpr ⟨ia, hia_n, hroot_ia, rfl⟩
    · rw [hgind]
      exact (mem_cluster_iff hcl _).mpr ⟨ja, hja_n, hroot_ja, rfl⟩
    · exact idxAt_ne_of_nodup (nonExact_fst_nodup hnd) hia_n hja_n
        (Nat.ne_of_lt hiaja)
    · rw [hdv, hval, phashAt_eq_phashOf hnd hia_n, phashAt_eq_phashOf hnd hja_n]
  · -- lower bound over every pair of distinct members
    intro a b ha hb hab
    rw [hgind] at ha hb
    obtain ⟨q1, hq1n, hq1r, hq1x⟩ := (mem_cluster_iff hcl a).mp ha
    obtain ⟨q2, hq2n, hq2r, hq2x⟩ := (mem_cluster_iff hcl b).mp hb
    have hq12 : q1 ≠ q2 := by
      intro hc
      apply hab
      rw [← hq1x, ← hq2x, hc]
    have hphA : phashAt (nonExact hashes) q1 = phashOf hashes a := by
      rw [phashAt_eq_phashOf hnd hq1n, hq1x]
    have hphB : phashAt (nonExact hashes) q2 = phashOf hashes b := by
      rw [phashAt_eq_phashOf hnd hq2n, hq2x]
    rw [← hphA, ← hphB, hdv]
    rcases Nat.lt_trichotomy q1 q2 with hlt | heqq | hgt
    · by_cases hle : hamming_distance (phashAt (nonExact hashes) q1)
          (phashAt (nonExact hashes) q2) ≤ T
      · have hedge2 : (q1, q2, hamming_distance (phashAt (nonExact hashes) q1)
            (phashAt (nonExact hashes) q2)) ∈
              matchingPairs (nonExact hashes) T :=
          mem_matchingPairs.mpr ⟨hlt, hq2n, rfl, hle⟩
        exact hbound _ ⟨q1, q2, hedge2, by rw [hq1r]⟩
      · omega
    · exact absurd heqq hq12
    · have hcomm : hamming_distance (phashAt (nonExact hashes) q2)
          (phashAt (nonExact hashes) q1) =
          hamming_distance (phashAt (nonExact hashes) q1)
            (phashAt (nonExact hashes) q2) := hamming_comm _ _
      by_cases hle : hamming_distance (phashAt (nonExact hashes) q2)
          (phashAt (nonExact hashes) q1) ≤ T
      · have hedge2 : (q2, q1, hamming_distance (phashAt (nonExact hashes) q2)
            (phashAt (nonExact hashes) q1)) ∈
              matchingPairs (nonExact hashes) T :=
          mem_matchingPairs.mpr ⟨hgt, hq1n, rfl, hle⟩
        have := hbound _ ⟨q2, q1, hedge2, by rw [hq2r]⟩
        omega
      · omega

/-- C8 witness: two entries at distance 1 under threshold 2 cluster into
one Visual group annotated 1, the exact pairwise minimum. -/
theorem claim_C8_witness :
    (∃ a b, a ∈ (⟨MatchKind.Visual 1, [0, 1]⟩ : DuplicateGroup).indices ∧
      b ∈ (⟨MatchKind.Visual 1, [0, 1]⟩ : DuplicateGroup).indices ∧ a ≠ b ∧
      1 = hamming_distance (phashOf [(0, ⟨[0], [0]⟩), (1, ⟨[1], [1]⟩)] a)
        (phashOf [(0, ⟨[0], [0]⟩), (1, ⟨[1], [1]⟩)] b)) ∧
    (∀ a b, a ∈ (⟨MatchKind.Visual 1, [0, 1]⟩ : DuplicateGroup).indices →
      b ∈ (⟨MatchKind.Visual 1, [0, 1]⟩ : DuplicateGroup).indices → a ≠ b →
      1 ≤ hamming_distance (phashOf [(0, ⟨[0], [0]⟩), (1, ⟨[1], [1]⟩)] a)
        (phashOf [(0, ⟨[0], [0]⟩), (1, ⟨[1], [1]⟩)] b)) ∧
    (∃ r val,
      (r, (⟨MatchKind.Visual 1, [0, 1]⟩ : DuplicateGroup).indices) ∈
        visualClusters [(0, ⟨[0], [0]⟩), (1, ⟨[1], [1]⟩)] 2 ∧
      mdLookup (visualFoldState [(0, ⟨[0], [0]⟩), (1, ⟨[1], [1]⟩)] 2).2 r =
        some val ∧ 1 = val) :=
  claim_C8_annotated_min [(0, ⟨[0], [0]⟩), (1, ⟨[1], [1]⟩)] 2 (by decide)
    (by decide) ⟨MatchKind.Visual 1, [0, 1]⟩ (by decide) 1 rfl

/-! ## Claim C9: threshold 0 clusters only bit-identical perceptual hashes -/

/-- C9: with threshold 0, two indices end up in the same Visual group
only if their perceptual hash vectors are bit-identical. The hypotheses
encode the data model of the fingerprints: indices are pairwise
distinct, and every perceptual hash is a fixed-width vector of u8 bytes
(the 8 by 8 gradient hash always yields 8 such bytes). Such indices may
still share no Exact group, since their content hashes can differ. -/
theorem claim_C9_threshold_zero (hashes : List (Nat × ImageHashes)) (L : Nat)
    (hnd : (hashes.map Prod.fst).Nodup)
    (hlen : ∀ ih ∈ hashes, ih.2.perceptual_hash.length = L)
    (hbyte : ∀ ih ∈ hashes, ∀ x ∈ ih.2.perceptual_hash, x < 256) :
    ∀ g ∈ find_duplicates hashes 0, ∀ dv,
      g.match_kind = MatchKind.Visual dv →
      ∀ a b, a ∈ g.indices → b ∈ g.indices →
        phashOf hashes a = phashOf hashes b := by
  have hpa : ∀ pos, pos < (nonExact hashes).length →
      (phashAt (nonExact hashes) pos).length = L ∧
      ∀ x ∈ phashAt (nonExact hashes) pos, x < 256 := by
    intro pos hpos
    have hmem := getD_mem (nonExact hashes) pos hpos
    have hph : phashAt (nonExact hashes) pos =
        ((nonExact hashes).getD pos (0, [])).2 := rfl
    rcases hgd : (nonExact hashes).getD pos (0, []) with ⟨x, ph⟩
    rw [hgd] at hmem
    obtain ⟨H, hH, hphe, _⟩ := mem_nonExact.mp hmem
    rw [hph, hgd]
    simp only
    constructor
    · rw [← hphe]
      exact hlen (x, H) hH
    · rw [← hphe]
      exact hbyte (x, H) hH
  have hedges : ∀ e ∈ matchingPairs (nonExact hashes) 0,
      e.1 < (nonExact hashes).length ∧ e.2.1 < (nonExact hashes).length ∧
      (fun pos => phashAt (nonExact hashes) pos) e.1 =
        (fun pos => phashAt (nonExact hashes) pos) e.2.1 := by
    rintro ⟨a, b, d⟩ he
    obtain ⟨h1, h2, hdeq, hd0⟩ := mem_matchingPairs.mp he
    have han := lt_trans h1 h2
    refine ⟨han, h2, ?_⟩
    have hzero : hamming_distance (phashAt (nonExact hashes) a)
        (phashAt (nonExact hashes) b) = 0 := by omega
    exact hamming_eq_zero _ _ (by rw [(hpa a han).1, (hpa b h2).1])
      (hpa a han).2 (hpa b h2).2 hzero
  have hbase : ∀ x y, x < (nonExact hashes).length →
      y < (nonExact hashes).length →
      rootN (nonExact hashes).length (fun x => x) x =
        rootN (nonExact hashes).length (fun x => x) y →
      (fun pos => phashAt (nonExact hashes) pos) x =
        (fun pos => phashAt (nonExact hashes) pos) y := by
    intro x y _ _ h
    rw [rootN_id, rootN_id] at h
    rw [h]
  have hresp := fold_respects (fun pos => phashAt (nonExact hashes) pos)
    (matchingPairs (nonExact hashes) 0) (fun x => x) [] (UFInv_id _)
    hedges hbase
  have hresp2 : ∀ x y, x < (nonExact hashes).length →
      y < (nonExact hashes).length →
      rootN (nonExact hashes).length (visualFoldState hashes 0).1 x =
        rootN (nonExact hashes).length (visualFoldState hashes 0).1 y →
      phashAt (nonExact hashes) x = phashAt (nonExact hashes) y := hresp.2
  intro g hg dv hkind a b ha hb
  rcases mem_find_duplicates.mp hg with hge | hgv
  · obtain ⟨k, v, _, _, hgeq⟩ := mem_exactGroups.mp hge
    rw [hgeq] at hkind
    exact absurd hkind (by simp)
  obtain ⟨r, v, hcl, _, hgeq⟩ := mem_visualGroups.mp hgv
  have ha' : a ∈ v := by rw [hgeq] at ha; exact ha
  have hb' : b ∈ v := by rw [hgeq] at hb; exact hb
  obtain ⟨q1, hq1n, hq1r, hq1x⟩ := (mem_cluster_iff hcl a).mp ha'
  obtain ⟨q2, hq2n, hq2r, hq2x⟩ := (mem_cluster_iff hcl b).mp hb'
  have heq := hresp2 q1 q2 hq1n hq2n (by rw [hq1r, hq2r])
  rw [← hq1x, ← hq2x, ← phashAt_eq_phashOf hnd hq1n,
    ← phashAt_eq_phashOf hnd hq2n]
  exact heq

/-- C9 witness: two entries with identical one-byte perceptual hashes and
different content hashes form one Visual group at threshold 0. -/
theorem claim_C9_witness :
    phashOf [(0, ⟨[0], [5]⟩), (1, ⟨[1], [5]⟩)] 0 =
      phashOf [(0, ⟨[0], [5]⟩), (1, ⟨[1], [5]⟩)] 1 :=
  claim_C9_threshold_zero [(0, ⟨[0], [5]⟩), (1, ⟨[1], [5]⟩)] 1
    (by decide) (by decide) (by decide)
    ⟨MatchKind.Visual 0, [0, 1]⟩ (by decide) 0 rfl 0 1 (by decide) (by decide)

end Looky
